import Mathlib

/-!
Shallow embedding of the finbytes indicator & backtest engine
(`src/finbytes/backtest_engine.py`, `src/finbytes/analysis_engine.py`).

Price and signal series are modelled as `List ℚ` / `List ℤ`; a pandas `NaN`
entry is modelled as `none` in `Option ℚ`.  Pandas comparison semantics
(`NaN` compares false) and skip-NaN aggregation are embedded explicitly at
each operation.  Float literals of the source (`0.98`, `1.02`, risk-free
rate, percentages) are read as exact rationals.
-/

namespace Finbytes

/-- `Series.pct_change()` of the close column: `none` (NaN) at bar 0 and out of
range, otherwise `c[i]/c[i-1] - 1`. -/
def pct_change (c : List ℚ) (i : ℕ) : Option ℚ :=
  if 0 < i ∧ i < c.length then some (c.getD i 0 / c.getD (i-1) 0 - 1) else none

/-- Helper for `signals.replace(0, nan).ffill().fillna(0)`: each zero signal is
replaced by the most recent non-zero signal (the carry), initially 0. -/
def positionsAux : List ℤ → ℤ → List ℤ
  | [], _ => []
  | s :: rest, carry =>
      (if s = 0 then carry else s) :: positionsAux rest (if s = 0 then carry else s)

/-- `positions = signals.replace(0, np.nan).ffill().fillna(0)` from
`simple_backtest`. -/
def positions (signals : List ℤ) : List ℤ := positionsAux signals 0

/-- The carry (most recent non-zero signal, else the initial value) after
consuming a signal list. -/
def carryAfter : List ℤ → ℤ → ℤ
  | [], c => c
  | s :: rest, c => carryAfter rest (if s = 0 then c else s)

/-- The ffill carry in effect just before index `k` of a signal stream. -/
def posCarry (sig : List ℤ) (k : ℕ) : ℤ := carryAfter (sig.take k) 0

/-- The last non-zero signal at an index `≤ i` (0 if there is none): the
specification's "signal held forward until changed". -/
def lastSignal (sig : List ℤ) (i : ℕ) : ℤ :=
  ((sig.take (i+1)).filter (fun s => s ≠ 0)).getLastD 0

/-- `strategy_returns = positions.shift(1) * returns` of `simple_backtest`:
NaN at bar 0 (the shift) and outside the index. -/
def strategy_return (c : List ℚ) (sig : List ℤ) (i : ℕ) : Option ℚ :=
  if i = 0 ∨ sig.length < i then none
  else (pct_change c i).map (fun r => ((positions sig).getD (i-1) 0 : ℚ) * r)

/-- Skip-NaN running product of `(1 + strategy_return)` scaled by the initial
capital: the accumulator of `(1 + strategy_returns).cumprod() * initial_capital`. -/
def equityAcc (cap : ℚ) (c : List ℚ) (sig : List ℤ) : ℕ → ℚ
  | 0 => match strategy_return c sig 0 with
         | none => cap
         | some r => cap * (1 + r)
  | i+1 => match strategy_return c sig (i+1) with
         | none => equityAcc cap c sig i
         | some r => equityAcc cap c sig i * (1 + r)

/-- `equity = (1 + strategy_returns).cumprod() * initial_capital`: pandas
`cumprod` keeps NaN positions NaN and skips them in the accumulation. -/
def equity (cap : ℚ) (c : List ℚ) (sig : List ℤ) (i : ℕ) : Option ℚ :=
  (strategy_return c sig i).map (fun _ => equityAcc cap c sig i)

/-- `total_return = (equity.iloc[-1] / initial_capital - 1) * 100`
(NaN-valued when the last equity entry is NaN). -/
def total_return_pct (cap : ℚ) (c : List ℚ) (sig : List ℤ) : Option ℚ :=
  (equity cap c sig (c.length - 1)).map (fun e => (e / cap - 1) * 100)

/-- `round(x, 2)` of the source, on exact rationals. -/
def round2 (x : ℚ) : ℚ := (round (x * 100) : ℤ) / 100

/-- One entry of the trade log built by `_calculate_trades`. -/
structure Trade where
  entry_idx : ℕ
  exit_idx : ℕ
  entry_price : ℚ
  exit_price : ℚ
  pnl_pct : ℚ
  pnl_amount : ℚ
  duration : ℕ
  win : Bool
deriving Repr, DecidableEq, Inhabited

/-- The scan of `_calculate_trades`: state is `none` (not in a position) or
`some (entry index, raw entry price)`; `i` is the running bar index.  Recorded
prices and pnl are rounded to two decimals; the win flag uses the raw pnl. -/
def tradesGo (prices : List ℚ) : List ℤ → ℕ → Option (ℕ × ℚ) → List Trade
  | [], _, _ => []
  | p :: rest, i, none =>
      if p = 1 then tradesGo prices rest (i+1) (some (i, prices.getD i 0))
      else tradesGo prices rest (i+1) none
  | p :: rest, i, some st =>
      if p = -1 then
        { entry_idx := st.1, exit_idx := i,
          entry_price := round2 st.2,
          exit_price := round2 (prices.getD i 0),
          pnl_pct := round2 ((prices.getD i 0 - st.2) / st.2 * 100),
          pnl_amount := round2 (prices.getD i 0 - st.2),
          duration := i - st.1,
          win := decide ((prices.getD i 0 - st.2) / st.2 * 100 > 0) }
          :: tradesGo prices rest (i+1) none
      else tradesGo prices rest (i+1) (some st)

/-- Final state of the `_calculate_trades` scan. -/
def tradeStateGo (prices : List ℚ) : List ℤ → ℕ → Option (ℕ × ℚ) → Option (ℕ × ℚ)
  | [], _, st => st
  | p :: rest, i, none =>
      if p = 1 then tradeStateGo prices rest (i+1) (some (i, prices.getD i 0))
      else tradeStateGo prices rest (i+1) none
  | p :: rest, i, some st =>
      if p = -1 then tradeStateGo prices rest (i+1) none
      else tradeStateGo prices rest (i+1) (some st)

/-- `_calculate_trades(positions, entry_price, exit_price)` with both price
series equal to the close column, as called by `simple_backtest`. -/
def calculate_trades (pos : List ℤ) (prices : List ℚ) : List Trade :=
  tradesGo prices pos 0 none

/-- The trade log `simple_backtest` derives from a signal stream. -/
def tradesOf (c : List ℚ) (sig : List ℤ) : List Trade :=
  calculate_trades (positions sig) c

/-- `_calculate_win_rate`. -/
def win_rate_pct (ts : List Trade) : ℚ :=
  if ts.length = 0 then 0
  else ((ts.filter (fun t => t.win)).length : ℚ) / (ts.length : ℚ) * 100

/-- `avg_win` of `simple_backtest` (mean pnl over winning trades, 0 if none). -/
def avgWin (ts : List Trade) : ℚ :=
  let w := ts.filter (fun t => t.win)
  if w.length = 0 then 0 else (w.map (fun t => t.pnl_pct)).sum / (w.length : ℚ)

/-- `avg_loss` of `simple_backtest` (mean pnl over losing trades, 0 if none). -/
def avgLoss (ts : List Trade) : ℚ :=
  let w := ts.filter (fun t => !t.win)
  if w.length = 0 then 0 else (w.map (fun t => t.pnl_pct)).sum / (w.length : ℚ)

/-- `largest_win = max((t['pnl_pct'] for t in trades), default=0)`: the source
takes the maximum over ALL trades, not only the winning ones. -/
def largestWin (ts : List Trade) : ℚ :=
  match ts.map (fun t => t.pnl_pct) with
  | [] => 0
  | x :: xs => xs.foldl max x

/-- `largest_loss = min((t['pnl_pct'] for t in trades), default=0)`: again over
ALL trades. -/
def largestLoss (ts : List Trade) : ℚ :=
  match ts.map (fun t => t.pnl_pct) with
  | [] => 0
  | x :: xs => xs.foldl min x

/-- The `avg_win_pct` field of the result dictionary (`round(avg_win, 2)`). -/
def avg_win_pct (ts : List Trade) : ℚ := round2 (avgWin ts)

/-- The `avg_loss_pct` field of the result dictionary. -/
def avg_loss_pct (ts : List Trade) : ℚ := round2 (avgLoss ts)

/-- The `largest_win_pct` field of the result dictionary. -/
def largest_win_pct (ts : List Trade) : ℚ := round2 (largestWin ts)

/-- The `largest_loss_pct` field of the result dictionary. -/
def largest_loss_pct (ts : List Trade) : ℚ := round2 (largestLoss ts)

/-- The per-bar strategy-return series handed to `_calculate_sharpe`. -/
def srList (c : List ℚ) (sig : List ℤ) : List (Option ℚ) :=
  (List.range c.length).map (strategy_return c sig)

/-- The defined (non-NaN) entries of a series, in order. -/
def definedVals (l : List (Option ℚ)) : List ℚ := l.filterMap id

/-- Skip-NaN mean (`Series.mean()`): NaN when no entry is defined. -/
def omean (l : List (Option ℚ)) : Option ℚ :=
  let v := definedVals l
  if v.length = 0 then none else some (v.sum / (v.length : ℚ))

/-- Skip-NaN sample variance (`Series.std()**2`, `ddof=1`): NaN when fewer
than two entries are defined. -/
def svar (l : List (Option ℚ)) : Option ℚ :=
  let v := definedVals l
  if v.length ≤ 1 then none
  else some ((v.map (fun x => (x - v.sum / (v.length : ℚ))^2)).sum / ((v.length : ℚ) - 1))

/-- `_calculate_sharpe` with its default risk-free rate 0.  The true value of
the non-degenerate branch is the irrational `√252 · mean/std`; to keep the
embedding computable we record that value's signed square
`252 · mean·|mean| / var`, which is `0`, NaN, positive or negative exactly
when the source's value is (so all zero/NaN claims about the Sharpe ratio
transfer verbatim).  `none` models a NaN result. -/
def sharpeSgnSq (c : List ℚ) (sig : List ℤ) : Option ℚ :=
  let rs := srList c sig
  if rs.length = 0 ∨ svar rs = some 0 then some 0
  else match omean rs, svar rs with
    | some m, some v => some (252 * m * |m| / v)
    | _, _ => none

example : positions [0, 1, 0, -1, 0] = [0, 1, 1, -1, -1] := by decide
example : pct_change [1, 2, 4] 1 = some 1 := by norm_num [pct_change]
example : strategy_return [1, 2, 4] [0, 1, 0] 2 = some 1 := by
  norm_num [strategy_return, pct_change, positions, positionsAux]
example : equity 10000 [1, 2, 4] [0, 1, 0] 0 = none := by
  norm_num [equity, strategy_return]
example : equity 10000 [1, 2, 4] [0, 1, 0] 2 = some 20000 := by
  norm_num [equity, equityAcc, strategy_return, pct_change, positions, positionsAux]
example : tradesOf [4, 2] [1, -1] =
    [{ entry_idx := 0, exit_idx := 1, entry_price := 4, exit_price := 2,
       pnl_pct := -50, pnl_amount := -2, duration := 1, win := false }] := by
  norm_num [tradesOf, calculate_trades, tradesGo, positions, positionsAux, round2, round_eq]
example : largest_win_pct (tradesOf [4, 2] [1, -1]) = -50 := by
  norm_num [largest_win_pct, largestWin, tradesOf, calculate_trades, tradesGo,
    positions, positionsAux, round2, round_eq]
example : sharpeSgnSq [1, 2] [0, 0] = none := by
  norm_num [sharpeSgnSq, srList, strategy_return, pct_change, positions, positionsAux,
    List.range_succ, definedVals, svar, omean, List.filterMap_cons, List.filterMap_nil]
  exact fun h => h.symm
example : sharpeSgnSq [1, 2, 3] [0, 0, 0] = some 0 := by
  norm_num [sharpeSgnSq, srList, strategy_return, pct_change, positions, positionsAux,
    List.range_succ, definedVals, svar, omean, List.filterMap_cons, List.filterMap_nil]

/-- `sma(period)`: `Close.rolling(window=period).mean()` — NaN until the
window is full. -/
def smaList (c : List ℚ) (p : ℕ) : List (Option ℚ) :=
  (List.range c.length).map (fun i =>
    if 1 ≤ p ∧ p ≤ i + 1 then some (((c.drop (i+1-p)).take p).sum / (p : ℚ)) else none)

/-- Recursive smoothing `y_i = (1-a)·y_(i-1) + a·x_i` used by
`ewm(span=period, adjust=False).mean()`. -/
def emaAux (a : ℚ) : List ℚ → ℚ → List ℚ
  | [], _ => []
  | x :: rest, prev =>
      ((1 - a) * prev + a * x) :: emaAux a rest ((1 - a) * prev + a * x)

/-- `Series.ewm(span=p, adjust=False).mean()` on a NaN-free series: seeded by
the first value, defined at every bar. -/
def ewmVals (a : ℚ) : List ℚ → List ℚ
  | [] => []
  | x :: rest => x :: emaAux a rest x

/-- `ema(period)`: `Close.ewm(span=period, adjust=False).mean()` with
smoothing factor `2/(period+1)`; every entry is defined. -/
def emaList (c : List ℚ) (p : ℕ) : List (Option ℚ) :=
  (ewmVals (2 / ((p : ℚ) + 1)) c).map some

/-- The linear weights `1..period` of `wma`. -/
def wmaWeights (p : ℕ) : List ℚ := (List.range p).map (fun k => ((k+1 : ℕ) : ℚ))

/-- `wma(period)`: rolling dot product with weights `1..period`, divided by
their sum. -/
def wmaList (c : List ℚ) (p : ℕ) : List (Option ℚ) :=
  (List.range c.length).map (fun i =>
    if 1 ≤ p ∧ p ≤ i + 1 then
      some ((List.zipWith (fun x y => x * y) ((c.drop (i+1-p)).take p) (wmaWeights p)).sum
        / (wmaWeights p).sum)
    else none)

/-- `delta.where(delta > 0, 0)` of the manual `rsi` branch.  At bar 0 the diff
is NaN, the comparison with 0 is false, and `where` therefore yields 0. -/
def rsiGain (c : List ℚ) (i : ℕ) : ℚ :=
  if i = 0 then 0 else max (c.getD i 0 - c.getD (i-1) 0) 0

/-- `(-delta).where(delta < 0, 0)`, i.e. the magnitude of a negative delta. -/
def rsiLoss (c : List ℚ) (i : ℕ) : ℚ :=
  if i = 0 then 0 else max (-(c.getD i 0 - c.getD (i-1) 0)) 0

/-- `gain.rolling(window=period).mean()`. -/
def gainRollMean (c : List ℚ) (p i : ℕ) : Option ℚ :=
  if 1 ≤ p ∧ p ≤ i + 1 ∧ i < c.length then
    some (((List.range p).map (fun k => rsiGain c (i + 1 - p + k))).sum / (p : ℚ))
  else none

/-- `loss.rolling(window=period).mean()`. -/
def lossRollMean (c : List ℚ) (p i : ℕ) : Option ℚ :=
  if 1 ≤ p ∧ p ≤ i + 1 ∧ i < c.length then
    some (((List.range p).map (fun k => rsiLoss c (i + 1 - p + k))).sum / (p : ℚ))
  else none

/-- The manual `rsi` computation `100 - 100/(1 + gain_mean/loss_mean)`.
When the loss mean is 0 pandas produces `±inf` or `0/0 = NaN` for `rs`:
`gain/0 = inf` maps to the value 100, `0/0 = NaN` propagates to NaN. -/
def rsi (c : List ℚ) (p i : ℕ) : Option ℚ :=
  match gainRollMean c p i, lossRollMean c p i with
  | some g, some l =>
      if l = 0 then (if g = 0 then none else some 100)
      else some (100 - 100 / (1 + g / l))
  | _, _ => none

/-- `High.rolling(window=w, center=True).max()`: pandas computes the trailing
max and shifts it left by `(w-1)/2`, so the window at label `i` covers
`[i + (w-1)/2 + 1 - w, i + (w-1)/2]`; NaN unless the window fits entirely. -/
def centeredRollMax (xs : List ℚ) (w i : ℕ) : Option ℚ :=
  if 1 ≤ w ∧ w ≤ i + (w-1)/2 + 1 ∧ i + (w-1)/2 < xs.length then
    ((xs.drop (i + (w-1)/2 + 1 - w)).take w).max?
  else none

/-- `Low.rolling(window=w, center=True).min()`. -/
def centeredRollMin (xs : List ℚ) (w i : ℕ) : Option ℚ :=
  if 1 ≤ w ∧ w ≤ i + (w-1)/2 + 1 ∧ i + (w-1)/2 < xs.length then
    ((xs.drop (i + (w-1)/2 + 1 - w)).take w).min?
  else none

/-- Touch count: bars whose high/low lies in `[level·0.98, level·1.02]`. -/
def touches (xs : List ℚ) (level : ℚ) : ℕ :=
  (xs.filter (fun h => level * (49/50) ≤ h ∧ h ≤ level * (51/50))).length

/-- The resistance levels appended by the first loop of
`find_support_resistance`: interior bars whose high equals the centered
rolling max and whose level has enough touches. -/
def resistanceCands (highs : List ℚ) (w mt : ℕ) : List ℚ :=
  ((List.range highs.length).filter (fun i =>
      w ≤ i ∧ i < highs.length - w ∧
      centeredRollMax highs w i = some (highs.getD i 0) ∧
      mt ≤ touches highs (highs.getD i 0))).map (fun i => highs.getD i 0)

/-- The support levels appended by the second loop. -/
def supportCands (lows : List ℚ) (w mt : ℕ) : List ℚ :=
  ((List.range lows.length).filter (fun i =>
      w ≤ i ∧ i < lows.length - w ∧
      centeredRollMin lows w i = some (lows.getD i 0) ∧
      mt ≤ touches lows (lows.getD i 0))).map (fun i => lows.getD i 0)

/-- `sorted(list(set(levels)), reverse=True)[:5]`. -/
def sortedTake5Desc (ls : List ℚ) : List ℚ :=
  (((ls.dedup).insertionSort (fun a b => a ≤ b)).reverse).take 5

/-- `sorted(list(set(levels)))[:5]`. -/
def sortedTake5Asc (ls : List ℚ) : List ℚ :=
  ((ls.dedup).insertionSort (fun a b => a ≤ b)).take 5

/-- Result of `find_support_resistance`. -/
structure SRLevels where
  support : List ℚ
  resistance : List ℚ
deriving Repr, DecidableEq

/-- `AnalysisEngine.find_support_resistance(window, min_touches)`. -/
def find_support_resistance (highs lows : List ℚ) (w mt : ℕ) : SRLevels :=
  { support := sortedTake5Asc (supportCands lows w mt),
    resistance := sortedTake5Desc (resistanceCands highs w mt) }

/-- The centered rolling max AS THE SPEC DESCRIBES IT: over `2·window+1` bars,
`window` on each side of the label. -/
def specCenteredMax (xs : List ℚ) (w i : ℕ) : Option ℚ :=
  if w ≤ i ∧ i + w < xs.length then ((xs.drop (i - w)).take (2*w+1)).max? else none

/-- The centered rolling min as the spec describes it. -/
def specCenteredMin (xs : List ℚ) (w i : ℕ) : Option ℚ :=
  if w ≤ i ∧ i + w < xs.length then ((xs.drop (i - w)).take (2*w+1)).min? else none

/-- `find_support_resistance` as the spec describes it (extrema over a
`2·window+1`-bar centered window); all other steps as in the source. -/
def spec_find_support_resistance (highs lows : List ℚ) (w mt : ℕ) : SRLevels :=
  { support := sortedTake5Asc
      (((List.range lows.length).filter (fun i =>
          w ≤ i ∧ i < lows.length - w ∧
          specCenteredMin lows w i = some (lows.getD i 0) ∧
          mt ≤ touches lows (lows.getD i 0))).map (fun i => lows.getD i 0)),
    resistance := sortedTake5Desc
      (((List.range highs.length).filter (fun i =>
          w ≤ i ∧ i < highs.length - w ∧
          specCenteredMax highs w i = some (highs.getD i 0) ∧
          mt ≤ touches highs (highs.getD i 0))).map (fun i => highs.getD i 0)) }

/-- NaN-aware `>` of pandas: false when either side is NaN. -/
def oGT : Option ℚ → Option ℚ → Bool
  | some a, some b => decide (b < a)
  | _, _ => false

/-- NaN-aware `<`. -/
def oLT : Option ℚ → Option ℚ → Bool
  | some a, some b => decide (a < b)
  | _, _ => false

/-- NaN-aware `≤`. -/
def oLE : Option ℚ → Option ℚ → Bool
  | some a, some b => decide (a ≤ b)
  | _, _ => false

/-- NaN-aware `≥`. -/
def oGE : Option ℚ → Option ℚ → Bool
  | some a, some b => decide (b ≤ a)
  | _, _ => false

/-- `Series.shift(1)` read at index `i`: NaN at bar 0. -/
def shift1 (A : List (Option ℚ)) (i : ℕ) : Option ℚ :=
  if i = 0 then none else A.getD (i-1) none

/-- `(A > B) & (A.shift(1) <= B.shift(1))` at bar `i`. -/
def crossUp (A B : List (Option ℚ)) (i : ℕ) : Bool :=
  oGT (A.getD i none) (B.getD i none) && oLE (shift1 A i) (shift1 B i)

/-- `(A < B) & (A.shift(1) >= B.shift(1))` at bar `i`. -/
def crossDown (A B : List (Option ℚ)) (i : ℕ) : Bool :=
  oLT (A.getD i none) (B.getD i none) && oGE (shift1 A i) (shift1 B i)

/-- The signal assignment of `sma_crossover_backtest` / `macd_crossover_backtest`:
0 everywhere, then 1 on up-crossings and -1 on down-crossings (the two
conditions are mutually exclusive). -/
def crossSignal (A B : List (Option ℚ)) (i : ℕ) : ℤ :=
  if crossDown A B i then -1 else if crossUp A B i then 1 else 0

/-- The full signal stream generated from two indicator series. -/
def crossSignals (A B : List (Option ℚ)) : List ℤ :=
  (List.range A.length).map (crossSignal A B)

/-- The signal stream of `sma_crossover_backtest(fast_period, slow_period)`. -/
def sma_crossover_signals (c : List ℚ) (fastp slowp : ℕ) : List ℤ :=
  crossSignals (smaList c fastp) (smaList c slowp)

/-- `macd_line = ema(fast) - ema(slow)` (defined at every bar). -/
def macdVals (c : List ℚ) (fast slow : ℕ) : List ℚ :=
  List.zipWith (fun a b => a - b) (ewmVals (2 / ((fast : ℚ) + 1)) c)
    (ewmVals (2 / ((slow : ℚ) + 1)) c)

/-- `signal_line = macd_line.ewm(span=signal, adjust=False).mean()`. -/
def macdSignalVals (c : List ℚ) (fast slow sg : ℕ) : List ℚ :=
  ewmVals (2 / ((sg : ℚ) + 1)) (macdVals c fast slow)

/-- The signal stream of `macd_crossover_backtest(fast, slow, signal)`. -/
def macd_crossover_signals (c : List ℚ) (fast slow sg : ℕ) : List ℤ :=
  crossSignals ((macdVals c fast slow).map some)
    ((macdSignalVals c fast slow sg).map some)

example : smaList [10, 11, 12, 11, 10] 2 =
    [none, some (21/2), some (23/2), some (23/2), some (21/2)] := by
  norm_num [smaList, List.range_succ]
example : emaList [1, 2] 3 = [some 1, some (3/2)] := by
  norm_num [emaList, ewmVals, emaAux]
example : rsi [1, 2, 1, 3] 2 2 = some 50 := by
  norm_num [rsi, gainRollMean, lossRollMean, rsiGain, rsiLoss, List.range_succ]
example : sma_crossover_signals [2, 1, 3, 3, 4] 1 2 = [0, 0, 1, 0, 1] := by
  norm_num [sma_crossover_signals, crossSignals, crossSignal, crossUp, crossDown,
    smaList, List.range_succ, oGT, oLT, oLE, oGE, shift1, List.getD]
example : find_support_resistance [9, 1, 2, 2, 1] [1, 1, 1, 1, 1] 2 2 =
    { support := [1], resistance := [2] } := by
  norm_num [find_support_resistance, resistanceCands, supportCands, sortedTake5Asc,
    sortedTake5Desc, centeredRollMax, centeredRollMin, touches, List.range_succ,
    List.max?, List.min?, List.dedup, List.insertionSort, List.orderedInsert,
    List.filter, max_def, min_def]
example : spec_find_support_resistance [9, 1, 2, 2, 1] [1, 1, 1, 1, 1] 2 2 =
    { support := [1], resistance := [] } := by
  norm_num [spec_find_support_resistance, sortedTake5Asc, sortedTake5Desc,
    specCenteredMax, specCenteredMin, touches, List.range_succ,
    List.max?, List.min?, List.dedup, List.insertionSort, List.orderedInsert,
    List.filter, max_def, min_def]

section Helpers

lemma getD_range_map {α : Type} (f : ℕ → α) (n i : ℕ) (d : α) (h : i < n) :
    ((List.range n).map f).getD i d = f i := by
  rw [List.getD_eq_getElem?_getD, List.getElem?_map, List.getElem?_range h]
  rfl

lemma emaAux_length (a : ℚ) (l : List ℚ) (prev : ℚ) :
    (emaAux a l prev).length = l.length := by
  induction l generalizing prev with
  | nil => rfl
  | cons x rest ih => simp [emaAux, ih]

lemma ewmVals_length (a : ℚ) (c : List ℚ) : (ewmVals a c).length = c.length := by
  cases c with
  | nil => rfl
  | cons x rest => simp [ewmVals, emaAux_length]

lemma dv_len (l : List ℕ) (f : ℕ → Option ℚ) :
    (definedVals (l.map f)).length = (l.filter (fun i => (f i).isSome)).length := by
  induction l with
  | nil => rfl
  | cons x rest ih =>
    cases hfx : f x with
    | none => simpa [definedVals, List.filterMap_cons, hfx, List.filter_cons] using ih
    | some v => simpa [definedVals, List.filterMap_cons, hfx, List.filter_cons] using ih

lemma range_filter_len (n : ℕ) (f : ℕ → Option ℚ) (h0 : f 0 = none)
    (hs : ∀ i, 1 ≤ i → i < n → (f i).isSome) (hn : 1 ≤ n) :
    ((List.range n).filter (fun i => (f i).isSome)).length = n - 1 := by
  induction n with
  | zero => omega
  | succ k ih =>
    rw [List.range_succ, List.filter_append, List.length_append]
    rcases Nat.eq_zero_or_pos k with rfl | hk
    · simp [h0]
    · have hfk : (f k).isSome := hs k hk (by omega)
      rw [ih (fun i hi1 hi2 => hs i hi1 (by omega)) hk]
      simp [hfk]
      omega

end Helpers

/-- **C4** (code bug).  The spec requires avg/largest win/loss % to be computed
only over trades of matching sign (0 when that subset is empty), but the source
computes `largest_win`/`largest_loss` as max/min over ALL trades.  On a
backtest with one losing trade (closes `[4, 2]`, buy then sell), every trade is
a loss, yet `largest_win_pct` is the least-negative loss `-50`, not 0; the
mirror run `[2, 4]` has only a winning trade yet `largest_loss_pct = 100`.
The `avg_*` fields do use the matching-sign subsets. -/
theorem C4_largest_win_bug_eval :
    tradesOf [4, 2] [1, -1] ≠ [] ∧
    (∀ t ∈ tradesOf [4, 2] [1, -1], t.win = false) ∧
    largest_win_pct (tradesOf [4, 2] [1, -1]) = -50 ∧
    avg_win_pct (tradesOf [4, 2] [1, -1]) = 0 ∧
    (∀ t ∈ tradesOf [2, 4] [1, -1], t.win = true) ∧
    largest_loss_pct (tradesOf [2, 4] [1, -1]) = 100 := by
  norm_num [tradesOf, calculate_trades, tradesGo, positions, positionsAux,
    largest_win_pct, largestWin, avg_win_pct, avgWin, largest_loss_pct,
    largestLoss, List.filter, round2, round_eq]

/-- **C8** (amended).  For every positive `period`: all three moving averages
preserve the series length; `sma` and `wma` are undefined exactly on the
prefix of length `period - 1` (so a period larger than the length yields an
all-undefined series, without error); but `ema` (`ewm(span, adjust=False)`)
is defined at EVERY bar — it has no undefined prefix, even when the period
exceeds the series length. -/
theorem C8_ma_lengths (c : List ℚ) (p : ℕ) (hp : 1 ≤ p) :
    (smaList c p).length = c.length ∧
    (emaList c p).length = c.length ∧
    (wmaList c p).length = c.length ∧
    (∀ i, i < c.length → (((smaList c p).getD i none).isSome ↔ p ≤ i + 1)) ∧
    (∀ i, i < c.length → (((wmaList c p).getD i none).isSome ↔ p ≤ i + 1)) ∧
    (∀ i, i < c.length → ((emaList c p).getD i none).isSome) := by
  refine ⟨by simp [smaList], by simp [emaList, ewmVals_length], by simp [wmaList],
    ?_, ?_, ?_⟩
  · intro i hi
    rw [smaList, getD_range_map _ _ _ _ hi]
    by_cases h : p ≤ i + 1
    · rw [if_pos ⟨hp, h⟩]; simpa using h
    · rw [if_neg (fun hc => h hc.2)]; simpa using h
  · intro i hi
    rw [wmaList, getD_range_map _ _ _ _ hi]
    by_cases h : p ≤ i + 1
    · rw [if_pos ⟨hp, h⟩]; simpa using h
    · rw [if_neg (fun hc => h hc.2)]; simpa using h
  · intro i hi
    rw [emaList]
    rw [List.getD_eq_getElem?_getD, List.getElem?_map]
    have hlen : i < (ewmVals (2 / ((p : ℚ) + 1)) c).length := by
      rw [ewmVals_length]; exact hi
    rw [List.getElem?_eq_getElem hlen]
    rfl

/-- **C8** counterexample to the claim as stated: with `period = 3` on a
2-bar history, the claim demands an all-undefined series (period exceeds the
length) with an undefined prefix of length ≥ 2, but `ema` is defined from the
very first bar. -/
theorem C8_counterexample :
    emaList [1, 2] 3 = [some 1, some (3/2)] ∧
    ¬ ((emaList [1, 2] 3).getD 0 none = none) ∧
    ¬ (∀ x ∈ emaList [1, 2] 3, x = none) := by
  refine ⟨by norm_num [emaList, ewmVals, emaAux], ?_, ?_⟩
  · norm_num [emaList, ewmVals, emaAux]
    exact fun h => Option.some_ne_none _ h
  · intro h
    have := h (some 1) (by norm_num [emaList, ewmVals, emaAux])
    exact Option.some_ne_none 1 this

/-- **C8** witness: the amended statement evaluated at `period = 2` on a
3-bar history. -/
theorem C8_witness :
    (smaList [5, 7, 9] 2).length = 3 ∧
    ¬ ((smaList [5, 7, 9] 2).getD 0 none).isSome ∧
    ((smaList [5, 7, 9] 2).getD 1 none).isSome ∧
    ((emaList [5, 7, 9] 2).getD 0 none).isSome := by
  obtain ⟨h1, h2, h3, h4, h5, h6⟩ := C8_ma_lengths [5, 7, 9] 2 (by norm_num)
  refine ⟨h1, ?_, ?_, h6 0 (by norm_num)⟩
  · rw [h4 0 (by norm_num)]; norm_num
  · rw [h4 1 (by norm_num)]

/-- **C6** (confirmed).  At every bar with a full window of true deltas
(`i ≥ period`) where the rolling loss mean is non-zero, the manual `rsi`
equals `100 - 100/(1 + G/L)` with `G`/`L` the SIMPLE rolling means over
`period` bars of the positive deltas / magnitudes of negative deltas — plain
arithmetic means, not Wilder exponential smoothing. -/
theorem C6_rsi_simple_mean (c : List ℚ) (p i : ℕ) (hp : 1 ≤ p) (hpi : p ≤ i)
    (hi : i < c.length)
    (hL : ((List.range p).map
        (fun k => max (-(c.getD (i-p+1+k) 0 - c.getD (i-p+k) 0)) 0)).sum / (p : ℚ) ≠ 0) :
    rsi c p i = some (100 - 100 / (1 +
      (((List.range p).map
          (fun k => max (c.getD (i-p+1+k) 0 - c.getD (i-p+k) 0) 0)).sum / (p : ℚ)) /
      (((List.range p).map
          (fun k => max (-(c.getD (i-p+1+k) 0 - c.getD (i-p+k) 0)) 0)).sum / (p : ℚ)))) := by
  have hcond : 1 ≤ p ∧ p ≤ i + 1 ∧ i < c.length := ⟨hp, by omega, hi⟩
  have hg : ((List.range p).map (fun k => rsiGain c (i + 1 - p + k))) =
      ((List.range p).map (fun k => max (c.getD (i-p+1+k) 0 - c.getD (i-p+k) 0) 0)) := by
    refine List.map_congr_left (fun k hk => ?_)
    have hk' : k < p := List.mem_range.mp hk
    have h1 : i + 1 - p + k ≠ 0 := by omega
    rw [rsiGain, if_neg h1]
    have h2 : i + 1 - p + k = i - p + 1 + k := by omega
    have h3 : i + 1 - p + k - 1 = i - p + k := by omega
    rw [h3, h2]
  have hl : ((List.range p).map (fun k => rsiLoss c (i + 1 - p + k))) =
      ((List.range p).map (fun k => max (-(c.getD (i-p+1+k) 0 - c.getD (i-p+k) 0)) 0)) := by
    refine List.map_congr_left (fun k hk => ?_)
    have hk' : k < p := List.mem_range.mp hk
    have h1 : i + 1 - p + k ≠ 0 := by omega
    rw [rsiLoss, if_neg h1]
    have h2 : i + 1 - p + k = i - p + 1 + k := by omega
    have h3 : i + 1 - p + k - 1 = i - p + k := by omega
    rw [h3, h2]
  have hG : gainRollMean c p i = some (((List.range p).map
      (fun k => max (c.getD (i-p+1+k) 0 - c.getD (i-p+k) 0) 0)).sum / (p : ℚ)) := by
    rw [gainRollMean, if_pos hcond, hg]
  have hLm : lossRollMean c p i = some (((List.range p).map
      (fun k => max (-(c.getD (i-p+1+k) 0 - c.getD (i-p+k) 0)) 0)).sum / (p : ℚ)) := by
    rw [lossRollMean, if_pos hcond, hl]
  simp only [rsi, hG, hLm]
  rw [if_neg hL]

/-- **C6** witness: `rsi` with period 2 at bar 2 of `[1, 2, 1, 3]` is 50. -/
theorem C6_witness : rsi [1, 2, 1, 3] 2 2 = some 50 := by
  have h := C6_rsi_simple_mean [1, 2, 1, 3] 2 2 (by norm_num) (by norm_num)
    (by norm_num) (by norm_num [List.range_succ])
  rw [h]
  norm_num [List.range_succ]

section PositionHelpers

lemma positionsAux_length (sig : List ℤ) (c0 : ℤ) :
    (positionsAux sig c0).length = sig.length := by
  induction sig generalizing c0 with
  | nil => rfl
  | cons s rest ih => simp [positionsAux, ih]

lemma positions_length (sig : List ℤ) : (positions sig).length = sig.length :=
  positionsAux_length sig 0

lemma positionsAux_getD (sig : List ℤ) (c0 : ℤ) (i : ℕ) (h : i < sig.length) :
    (positionsAux sig c0).getD i 0 = carryAfter (sig.take (i+1)) c0 := by
  induction sig generalizing c0 i with
  | nil => simp at h
  | cons s rest ih =>
    cases i with
    | zero =>
      rw [List.take_succ_cons, List.take_zero, positionsAux, List.getD_cons_zero,
        carryAfter, carryAfter]
    | succ k =>
      have hk : k < rest.length := by simpa using h
      rw [List.take_succ_cons, positionsAux, List.getD_cons_succ, carryAfter]
      exact ih _ k hk

lemma carryAfter_eq (l : List ℤ) : ∀ c0 : ℤ,
    carryAfter l c0 = (l.filter (fun s => s ≠ 0)).getLastD c0 := by
  induction l with
  | nil => intro c0; rfl
  | cons s rest ih =>
    intro c0
    rw [carryAfter, List.filter_cons]
    by_cases hs : s = 0
    · rw [if_pos hs, if_neg (show ¬(decide (s ≠ 0) = true) by simp [hs])]
      exact ih c0
    · rw [if_neg hs, if_pos (show decide (s ≠ 0) = true by simp [hs]),
        List.getLastD_cons]
      exact ih s

lemma positions_getD (sig : List ℤ) (i : ℕ) (h : i < sig.length) :
    (positions sig).getD i 0 = lastSignal sig i := by
  rw [positions, positionsAux_getD sig 0 i h, carryAfter_eq, lastSignal]

lemma strategy_return_zero (c : List ℚ) (sig : List ℤ) :
    strategy_return c sig 0 = none := by
  simp [strategy_return]

lemma strategy_return_eq (c : List ℚ) (sig : List ℤ) (hlen : sig.length = c.length)
    (i : ℕ) (h1 : 1 ≤ i) (h2 : i < c.length) :
    strategy_return c sig i =
      some (((positions sig).getD (i-1) 0 : ℚ) * (c.getD i 0 / c.getD (i-1) 0 - 1)) := by
  rw [strategy_return, if_neg (by omega), pct_change, if_pos ⟨by omega, h2⟩]
  rfl

lemma equityAcc_zero (cap : ℚ) (c : List ℚ) (sig : List ℤ) :
    equityAcc cap c sig 0 = cap := by
  rw [equityAcc, strategy_return_zero]

lemma equityAcc_succ_of_some (cap : ℚ) (c : List ℚ) (sig : List ℤ) (i : ℕ) (r : ℚ)
    (h : strategy_return c sig (i+1) = some r) :
    equityAcc cap c sig (i+1) = equityAcc cap c sig i * (1 + r) := by
  rw [equityAcc, h]

end PositionHelpers

/-- **C1** (amended).  The simulator's per-bar return is
`strategy_return[i] = position[i-1] · (close[i]/close[i-1] - 1)` where the
position indicator is the last non-zero signal held forward (so the signal at
bar `i` cannot influence returns at bars `≤ i`: one bar of lag).  The equity
curve, however, is NOT seeded with `equity[0] = capital`: `equity[0]` is the
NaN sentinel (the first strategy return is undefined), `equity[1] =
capital·(1 + strategy_return[1])`, and the stated recurrence
`equity[i] = equity[i-1]·(1 + strategy_return[i])` holds from `i = 2` on. -/
theorem C1_execution_lag_and_equity (cap : ℚ) (c : List ℚ) (sig : List ℤ)
    (hlen : sig.length = c.length) :
    (∀ i, 1 ≤ i → i < c.length →
      strategy_return c sig i =
        some (((positions sig).getD (i-1) 0 : ℚ) * (c.getD i 0 / c.getD (i-1) 0 - 1))) ∧
    (∀ i, i < sig.length → (positions sig).getD i 0 = lastSignal sig i) ∧
    (∀ (sig' : List ℤ) (i j : ℕ), sig'.length = sig.length → sig.take i = sig'.take i →
      j ≤ i → strategy_return c sig j = strategy_return c sig' j) ∧
    equity cap c sig 0 = none ∧
    (1 < c.length → equity cap c sig 1 =
      some (cap * (1 + ((positions sig).getD 0 0 : ℚ) * (c.getD 1 0 / c.getD 0 0 - 1)))) ∧
    (∀ i e, 2 ≤ i → i < c.length → equity cap c sig (i-1) = some e →
      equity cap c sig i =
        some (e * (1 + ((positions sig).getD (i-1) 0 : ℚ) * (c.getD i 0 / c.getD (i-1) 0 - 1)))) := by
  refine ⟨strategy_return_eq c sig hlen, fun i h => positions_getD sig i h, ?_, ?_, ?_, ?_⟩
  · -- returns through bar i are unaffected by the signal at bar i
    intro sig' i j hlen' htake hji
    rcases Nat.eq_zero_or_pos j with rfl | hj1
    · rw [strategy_return_zero, strategy_return_zero]
    by_cases hjn : c.length < j
    · rw [strategy_return, if_pos (Or.inr (by omega)),
        strategy_return, if_pos (Or.inr (by omega))]
    · have hj2 : j ≤ c.length := by omega
      have hjtake : sig.take j = sig'.take j := by
        have h1 : sig.take j = (sig.take i).take j := by
          rw [List.take_take, Nat.min_eq_left hji]
        have h2 : sig'.take j = (sig'.take i).take j := by
          rw [List.take_take, Nat.min_eq_left hji]
        rw [h1, h2, htake]
      have hpos : (positions sig).getD (j-1) 0 = (positions sig').getD (j-1) 0 := by
        rw [positions_getD sig (j-1) (by omega), positions_getD sig' (j-1) (by omega)]
        unfold lastSignal
        have : sig.take (j-1+1) = sig'.take (j-1+1) := by
          have hj : j - 1 + 1 = j := by omega
          rw [hj, hjtake]
        rw [this]
      rw [strategy_return, strategy_return, hlen', hpos]
  · simp [equity, strategy_return_zero]
  · intro hn
    have h1 := strategy_return_eq c sig hlen 1 le_rfl hn
    rw [equity, h1, Option.map_some']
    have : equityAcc cap c sig 1 =
        cap * (1 + ((positions sig).getD 0 0 : ℚ) * (c.getD 1 0 / c.getD 0 0 - 1)) := by
      have := equityAcc_succ_of_some cap c sig 0 _ h1
      rw [this, equityAcc_zero]
    rw [this]
  · intro i e h2 hin heq
    obtain ⟨k, rfl⟩ : ∃ k, i = k + 1 := ⟨i - 1, by omega⟩
    have hk : k + 1 - 1 = k := by omega
    rw [hk] at heq ⊢
    have hsrk : strategy_return c sig (k+1) =
        some (((positions sig).getD k 0 : ℚ) * (c.getD (k+1) 0 / c.getD k 0 - 1)) := by
      have := strategy_return_eq c sig hlen (k+1) (by omega) hin
      simpa using this
    have hsrk' : strategy_return c sig k ≠ none := by
      intro hnone
      rw [equity, hnone] at heq
      simp at heq
    have hacc : equityAcc cap c sig k = e := by
      rcases Option.ne_none_iff_exists'.mp hsrk' with ⟨r, hr⟩
      rw [equity, hr] at heq
      simpa using heq
    rw [equity, hsrk, Option.map_some', equityAcc_succ_of_some cap c sig k _ hsrk, hacc]

/-- **C1** counterexample to the claim as stated: on a flat 2-bar backtest the
first equity entry is the NaN sentinel, not the initial capital, so the stated
seeded recurrence `equity[1] = equity[0]·(1+strategy_return[1])` fails at
`i = 1` (its right side is NaN under pandas' NaN-propagating product while its
left side is the capital). -/
theorem C1_counterexample :
    equity 10000 [1, 2] [0, 0] 1 = some 10000 ∧
    equity 10000 [1, 2] [0, 0] 0 = none ∧
    ¬ (equity 10000 [1, 2] [0, 0] 0 = some 10000) := by
  have h0 : equity 10000 [1, 2] [0, 0] 0 = none := by
    norm_num [equity, strategy_return]
  refine ⟨?_, h0, ?_⟩
  · norm_num [equity, equityAcc, strategy_return, pct_change, positions, positionsAux]
  · rw [h0]
    exact fun hc => Option.noConfusion hc

/-- **C1** witness: the amended statement at closes `[1, 2, 4]` with a buy at
bar 1; the signal at bar 1 leaves the bar-1 return untouched (it is the same
as under the all-none stream) and first acts at bar 2. -/
theorem C1_witness :
    strategy_return [1, 2, 4] [0, 1, 0] 2 = some 1 ∧
    strategy_return [1, 2, 4] [0, 1, 0] 1 = strategy_return [1, 2, 4] [0, 0, 0] 1 ∧
    equity 10000 [1, 2, 4] [0, 1, 0] 0 = none := by
  obtain ⟨hsr, hpos, hpre, he0, he1, hrec⟩ :=
    C1_execution_lag_and_equity 10000 [1, 2, 4] [0, 1, 0] rfl
  refine ⟨?_, ?_, he0⟩
  · rw [hsr 2 (by norm_num) (by norm_num)]
    norm_num [positions, positionsAux]
  · exact hpre [0, 0, 0] 1 1 rfl rfl le_rfl

/-- **C2** (amended).  Over a non-empty positive-price history the FIRST entry
of the equity curve is the NaN sentinel, not the initial capital; every entry
from index 1 on is a defined (finite) value; the total-return scalar is
defined once the history has ≥ 2 bars, and the Sharpe scalar once it has
≥ 3 bars (with ≤ 2 bars the sample deviation of the defined returns is NaN
and the code's Sharpe is NaN). -/
theorem C2_equity_finiteness (cap : ℚ) (c : List ℚ) (sig : List ℤ)
    (hlen : sig.length = c.length) (_hpos : ∀ x ∈ c, 0 < x) :
    equity cap c sig 0 = none ∧
    (∀ i, 1 ≤ i → i < c.length → (equity cap c sig i).isSome) ∧
    (2 ≤ c.length → (total_return_pct cap c sig).isSome) ∧
    (3 ≤ c.length → (sharpeSgnSq c sig).isSome) := by
  have hsome : ∀ i, 1 ≤ i → i < c.length → (equity cap c sig i).isSome := by
    intro i h1 h2
    rw [equity, strategy_return_eq c sig hlen i h1 h2]
    rfl
  refine ⟨by simp [equity, strategy_return_zero], hsome, ?_, ?_⟩
  · intro hn
    obtain ⟨e, he⟩ := Option.isSome_iff_exists.mp
      (hsome (c.length - 1) (by omega) (by omega))
    rw [total_return_pct, he]
    rfl
  · intro hn
    have hdl : (definedVals (srList c sig)).length = c.length - 1 := by
      rw [srList, dv_len, range_filter_len c.length (strategy_return c sig)
        (strategy_return_zero c sig)
        (fun i hi1 hi2 => by rw [strategy_return_eq c sig hlen i hi1 hi2]; rfl)
        (by omega)]
    have hrslen : (srList c sig).length = c.length := by simp [srList]
    rw [sharpeSgnSq]
    by_cases hv : svar (srList c sig) = some 0
    · rw [if_pos (Or.inr hv)]
      rfl
    · rw [if_neg (by
        push_neg
        exact ⟨by omega, hv⟩)]
      have homean : omean (srList c sig) =
          some ((definedVals (srList c sig)).sum / ((definedVals (srList c sig)).length : ℚ)) := by
        rw [omean, if_neg (by omega)]
      have hsvar : svar (srList c sig) =
          some (((definedVals (srList c sig)).map
              (fun x => (x - (definedVals (srList c sig)).sum /
                ((definedVals (srList c sig)).length : ℚ))^2)).sum /
            (((definedVals (srList c sig)).length : ℚ) - 1)) := by
        rw [svar, if_neg (by omega)]
      rw [homean, hsvar]
      rfl

/-- **C2** counterexample to the claim as stated: on the 2-bar history
`[1, 3]` with no signals, `equity[0]` is NaN (`none`), not the configured
capital 500, and the returned Sharpe scalar is NaN as well. -/
theorem C2_counterexample :
    equity 500 [1, 3] [0, 0] 0 = none ∧
    ¬ (equity 500 [1, 3] [0, 0] 0 = some 500) ∧
    sharpeSgnSq [1, 3] [0, 0] = none := by
  have h0 : equity 500 [1, 3] [0, 0] 0 = none := by
    norm_num [equity, strategy_return]
  refine ⟨h0, by rw [h0]; exact fun hc => Option.noConfusion hc, ?_⟩
  norm_num [sharpeSgnSq, srList, strategy_return, pct_change, positions, positionsAux,
    List.range_succ, definedVals, svar, omean, List.filterMap_cons, List.filterMap_nil]
  exact fun h => h.symm

/-- **C2** witness: the amended statement at closes `[1, 2, 4]` with a buy at
bar 1 and capital 10000. -/
theorem C2_witness :
    equity 10000 [1, 2, 4] [0, 1, 0] 0 = none ∧
    (equity 10000 [1, 2, 4] [0, 1, 0] 2).isSome ∧
    (total_return_pct 10000 [1, 2, 4] [0, 1, 0]).isSome ∧
    (sharpeSgnSq [1, 2, 4] [0, 1, 0]).isSome := by
  obtain ⟨h0, h1, h2, h3⟩ := C2_equity_finiteness 10000 [1, 2, 4] [0, 1, 0] rfl
    (by norm_num)
  exact ⟨h0, h1 2 (by norm_num) (by norm_num), h2 (by norm_num), h3 (by norm_num)⟩

section FlatHelpers

lemma positionsAux_of_zero (sig : List ℤ) (hflat : ∀ s ∈ sig, s = 0) (c0 : ℤ) :
    positionsAux sig c0 = List.replicate sig.length c0 := by
  induction sig generalizing c0 with
  | nil => rfl
  | cons s rest ih =>
    have hs : s = 0 := hflat s (by simp)
    rw [positionsAux, if_pos hs, List.length_cons, List.replicate_succ,
      ih (fun x hx => hflat x (by simp [hx]))]

lemma tradesGo_no_entry (prices : List ℚ) :
    ∀ (l : List ℤ) (i : ℕ), (∀ x ∈ l, x ≠ 1) → tradesGo prices l i none = [] := by
  intro l
  induction l with
  | nil => intro i _; rfl
  | cons p rest ih =>
    intro i hl
    rw [tradesGo, if_neg (hl p (by simp))]
    exact ih (i+1) (fun x hx => hl x (by simp [hx]))

lemma strategy_return_flat_val (c : List ℚ) (sig : List ℤ)
    (hflat : ∀ s ∈ sig, s = 0) (i : ℕ) (r : ℚ)
    (h : strategy_return c sig i = some r) : r = 0 := by
  rw [strategy_return] at h
  by_cases hc : i = 0 ∨ sig.length < i
  · rw [if_pos hc] at h
    exact absurd h (by simp)
  · rw [if_neg hc] at h
    push_neg at hc
    have hlt : i - 1 < sig.length := by omega
    have hzero : (positions sig).getD (i-1) 0 = 0 := by
      rw [positions, positionsAux_of_zero sig hflat 0, List.getD_eq_getElem?_getD,
        List.getElem?_replicate]
      simp [hlt]
    rw [hzero] at h
    cases hp : pct_change c i with
    | none => rw [hp] at h; exact absurd h (by simp)
    | some v =>
      rw [hp] at h
      simp only [Option.map_some', Option.some.injEq] at h
      rw [← h]
      norm_num

lemma equityAcc_flat (cap : ℚ) (c : List ℚ) (sig : List ℤ)
    (hflat : ∀ s ∈ sig, s = 0) (i : ℕ) : equityAcc cap c sig i = cap := by
  induction i with
  | zero => exact equityAcc_zero cap c sig
  | succ k ih =>
    rw [equityAcc]
    cases hsr : strategy_return c sig (k+1) with
    | none => exact ih
    | some r =>
      rw [strategy_return_flat_val c sig hflat (k+1) r hsr, ih]
      norm_num

end FlatHelpers

/-- **C9** (amended).  On a history of at least 3 bars with positive closes
and positive capital, an all-`none` signal stream produces an empty trade log
(`trades = 0`), `win_rate_pct = 0`, a Sharpe scalar of exactly 0 and a total
return of exactly 0, with no error.  (With ≤ 2 bars the Sharpe scalar is the
NaN sentinel instead: see the counterexample.) -/
theorem C9_zero_trade (cap : ℚ) (c : List ℚ) (sig : List ℤ)
    (hlen : sig.length = c.length) (hcap : 0 < cap) (hn : 3 ≤ c.length)
    (hflat : ∀ s ∈ sig, s = 0) :
    tradesOf c sig = [] ∧
    win_rate_pct (tradesOf c sig) = 0 ∧
    sharpeSgnSq c sig = some 0 ∧
    total_return_pct cap c sig = some 0 := by
  have htr : tradesOf c sig = [] := by
    rw [tradesOf, calculate_trades]
    refine tradesGo_no_entry c (positions sig) 0 (fun x hx => ?_)
    rw [positions, positionsAux_of_zero sig hflat 0] at hx
    have := List.eq_of_mem_replicate hx
    omega
  have hsome : ∀ i, 1 ≤ i → i < c.length → (strategy_return c sig i).isSome := by
    intro i h1 h2
    rw [strategy_return_eq c sig hlen i h1 h2]
    rfl
  have hdl : (definedVals (srList c sig)).length = c.length - 1 := by
    rw [srList, dv_len, range_filter_len c.length (strategy_return c sig)
      (strategy_return_zero c sig) hsome (by omega)]
  have hvals : ∀ x ∈ definedVals (srList c sig), x = 0 := by
    intro x hx
    rw [definedVals, List.mem_filterMap] at hx
    obtain ⟨a, ha, hax⟩ := hx
    rw [srList, List.mem_map] at ha
    obtain ⟨j, _, hj⟩ := ha
    have : strategy_return c sig j = some x := by
      rw [hj]; exact hax
    exact strategy_return_flat_val c sig hflat j x this
  have hsum : (definedVals (srList c sig)).sum = 0 :=
    List.sum_eq_zero hvals
  have hsvar : svar (srList c sig) = some 0 := by
    rw [svar, if_neg (by omega)]
    congr 1
    rw [div_eq_zero_iff]
    left
    refine List.sum_eq_zero (fun x hx => ?_)
    rw [List.mem_map] at hx
    obtain ⟨y, hy, hxy⟩ := hx
    rw [← hxy, hvals y hy, hsum]
    norm_num
  refine ⟨htr, by rw [htr]; rfl, ?_, ?_⟩
  · rw [sharpeSgnSq, if_pos (Or.inr hsvar)]
  · have hlast : strategy_return c sig (c.length - 1) =
        some (((positions sig).getD (c.length - 1 - 1) 0 : ℚ) *
          (c.getD (c.length - 1) 0 / c.getD (c.length - 1 - 1) 0 - 1)) :=
      strategy_return_eq c sig hlen (c.length - 1) (by omega) (by omega)
    rw [total_return_pct, equity, hlast, Option.map_some', Option.map_some',
      equityAcc_flat cap c sig hflat]
    rw [div_self (ne_of_gt hcap)]
    norm_num

/-- **C9** counterexample to the claim as stated: a flat backtest over only
2 bars has a single defined per-bar return, its sample deviation is NaN, and
`_calculate_sharpe` returns NaN — not 0. -/
theorem C9_counterexample :
    sharpeSgnSq [1, 2] [0, 0] = none ∧
    ¬ (sharpeSgnSq [1, 2] [0, 0] = some 0) := by
  have h : sharpeSgnSq [1, 2] [0, 0] = none := by
    norm_num [sharpeSgnSq, srList, strategy_return, pct_change, positions, positionsAux,
      List.range_succ, definedVals, svar, omean, List.filterMap_cons, List.filterMap_nil]
    exact fun hc => hc.symm
  exact ⟨h, by rw [h]; exact fun hc => Option.noConfusion hc⟩

/-- **C9** witness: the flat 3-bar backtest. -/
theorem C9_witness :
    tradesOf [1, 2, 3] [0, 0, 0] = [] ∧
    win_rate_pct (tradesOf [1, 2, 3] [0, 0, 0]) = 0 ∧
    sharpeSgnSq [1, 2, 3] [0, 0, 0] = some 0 ∧
    total_return_pct 10000 [1, 2, 3] [0, 0, 0] = some 0 :=
  C9_zero_trade 10000 [1, 2, 3] [0, 0, 0] rfl (by norm_num) (by norm_num)
    (by intro s hs; simpa using hs)

section StateMachineHelpers

lemma positionsAux_append (a b : List ℤ) (c0 : ℤ) :
    positionsAux (a ++ b) c0 = positionsAux a c0 ++ positionsAux b (carryAfter a c0) := by
  induction a generalizing c0 with
  | nil => rfl
  | cons s rest ih =>
    rw [List.cons_append, positionsAux, positionsAux, carryAfter, List.cons_append, ih]

lemma tradesGo_append (prices : List ℚ) (a b : List ℤ) :
    ∀ (i : ℕ) (st : Option (ℕ × ℚ)),
    tradesGo prices (a ++ b) i st =
      tradesGo prices a i st ++
        tradesGo prices b (i + a.length) (tradeStateGo prices a i st) := by
  induction a with
  | nil => intro i st; simp [tradesGo, tradeStateGo]
  | cons p rest ih =>
    intro i st
    have hl' : i + 1 + rest.length = i + (p :: rest).length := by
      simp only [List.length_cons]; omega
    cases st with
    | none =>
      by_cases hp : p = 1
      · rw [List.cons_append, tradesGo, if_pos hp, ih, tradesGo, if_pos hp,
          tradeStateGo, if_pos hp, hl']
      · rw [List.cons_append, tradesGo, if_neg hp, ih, tradesGo, if_neg hp,
          tradeStateGo, if_neg hp, hl']
    | some stv =>
      by_cases hp : p = -1
      · rw [List.cons_append, tradesGo, if_pos hp, ih, tradesGo, if_pos hp,
          tradeStateGo, if_pos hp, hl', List.cons_append]
      · rw [List.cons_append, tradesGo, if_neg hp, ih, tradesGo, if_neg hp,
          tradeStateGo, if_neg hp, hl']

lemma tradeState_carry (prices : List ℚ) :
    ∀ (sig : List ℤ) (c0 : ℤ) (i : ℕ) (st : Option (ℕ × ℚ)),
    (∀ s ∈ sig, s = 1 ∨ s = -1 ∨ s = 0) →
    (st.isSome ↔ c0 = 1) →
    ((tradeStateGo prices (positionsAux sig c0) i st).isSome ↔ carryAfter sig c0 = 1) := by
  intro sig
  induction sig with
  | nil =>
    intro c0 i st _ hst
    simpa [positionsAux, tradeStateGo, carryAfter] using hst
  | cons s rest ih =>
    intro c0 i st hsig hst
    have hrest : ∀ x ∈ rest, x = 1 ∨ x = -1 ∨ x = 0 := fun x hx => hsig x (by simp [hx])
    rw [positionsAux, carryAfter]
    rcases hsig s (by simp) with rfl | rfl | rfl
    · rw [if_neg (by norm_num : ¬(1:ℤ) = 0)]
      cases st with
      | none =>
        rw [tradeStateGo, if_pos rfl]
        exact ih 1 (i+1) _ hrest (by simp)
      | some v =>
        rw [tradeStateGo, if_neg (by norm_num : ¬(1:ℤ) = -1)]
        exact ih 1 (i+1) _ hrest (by simp)
    · rw [if_neg (by norm_num : ¬(-1:ℤ) = 0)]
      cases st with
      | none =>
        rw [tradeStateGo, if_neg (by norm_num : ¬(-1:ℤ) = 1)]
        exact ih (-1) (i+1) _ hrest (by simp)
      | some v =>
        rw [tradeStateGo, if_pos rfl]
        exact ih (-1) (i+1) _ hrest (by simp)
    · rw [if_pos rfl]
      cases st with
      | none =>
        simp only [Option.isSome_none, Bool.false_eq_true, false_iff] at hst
        rw [tradeStateGo, if_neg hst]
        exact ih c0 (i+1) _ hrest (by simp [hst])
      | some v =>
        simp only [Option.isSome_some, true_iff] at hst
        rw [tradeStateGo, if_neg (by rw [hst]; norm_num)]
        exact ih c0 (i+1) _ hrest (by simp [hst])

lemma tradesGo_flat_carry (prices : List ℚ) :
    ∀ (l : List ℤ) (c1 c2 : ℤ) (i : ℕ), c1 ≠ 1 → c2 ≠ 1 →
    tradesGo prices (positionsAux l c1) i none =
      tradesGo prices (positionsAux l c2) i none := by
  intro l
  induction l with
  | nil => intros; rfl
  | cons s rest ih =>
    intro c1 c2 i h1 h2
    by_cases hs : s = 0
    · rw [positionsAux, positionsAux, if_pos hs, if_pos hs, tradesGo, tradesGo,
        if_neg h1, if_neg h2]
      exact ih c1 c2 (i+1) h1 h2
    · rw [positionsAux, positionsAux, if_neg hs, if_neg hs]

lemma positionsAux_mem_range (sig : List ℤ)
    (hsig : ∀ s ∈ sig, s = 1 ∨ s = -1 ∨ s = 0) :
    ∀ c0, (c0 = 1 ∨ c0 = -1 ∨ c0 = 0) →
    ∀ x ∈ positionsAux sig c0, x = 1 ∨ x = -1 ∨ x = 0 := by
  induction sig with
  | nil => intro c0 _ x hx; simp [positionsAux] at hx
  | cons s rest ih =>
    intro c0 hc0 x hx
    have hrest : ∀ x ∈ rest, x = 1 ∨ x = -1 ∨ x = 0 := fun y hy => hsig y (by simp [hy])
    have hs := hsig s (by simp)
    rw [positionsAux] at hx
    rcases List.mem_cons.mp hx with rfl | hx'
    · by_cases h0 : s = 0
      · simpa [h0] using hc0
      · simpa [h0] using hs
    · refine ih hrest _ ?_ x hx'
      by_cases h0 : s = 0
      · simpa [h0] using hc0
      · simpa [h0] using hs

lemma strategy_return_congr (c : List ℚ) (s1 s2 : List ℤ)
    (hp : positions s1 = positions s2) (hl : s1.length = s2.length) (i : ℕ) :
    strategy_return c s1 i = strategy_return c s2 i := by
  rw [strategy_return, strategy_return, hp, hl]

lemma equity_congr (cap : ℚ) (c : List ℚ) (s1 s2 : List ℤ)
    (hp : positions s1 = positions s2) (hl : s1.length = s2.length) (i : ℕ) :
    equity cap c s1 i = equity cap c s2 i := by
  have hacc : ∀ j, equityAcc cap c s1 j = equityAcc cap c s2 j := by
    intro j
    induction j with
    | zero => rw [equityAcc, equityAcc, strategy_return_congr c s1 s2 hp hl]
    | succ m ihm =>
      rw [equityAcc, equityAcc, strategy_return_congr c s1 s2 hp hl, ihm]
  rw [equity, equity, strategy_return_congr c s1 s2 hp hl, hacc]

end StateMachineHelpers

/-- **C3** (amended).  A long-entry signal while already LONG (ffill carry 1)
is a complete no-op: the position series, the trade log and the equity curve
are unchanged.  A long-exit signal while FLAT leaves the TRADE LOG unchanged,
but it is NOT a no-op for the equity curve: the position indicator becomes
`-1` and is held forward (a short exposure; see the counterexample).  The
position indicator always lies in `{-1, 0, 1}` — not `{0, 1}`. -/
theorem C3_noop_signals :
    (∀ (c : List ℚ) (cap : ℚ) (sig : List ℤ) (k : ℕ), k < sig.length →
       sig.getD k 0 = 1 → posCarry sig k = 1 →
       positions (sig.set k 0) = positions sig ∧
       tradesOf c (sig.set k 0) = tradesOf c sig ∧
       (∀ i, equity cap c (sig.set k 0) i = equity cap c sig i)) ∧
    (∀ (c : List ℚ) (sig : List ℤ) (k : ℕ),
       (∀ s ∈ sig, s = 1 ∨ s = -1 ∨ s = 0) → k < sig.length →
       sig.getD k 0 = -1 → posCarry sig k ≠ 1 →
       tradesOf c (sig.set k 0) = tradesOf c sig) ∧
    (∀ (sig : List ℤ), (∀ s ∈ sig, s = 1 ∨ s = -1 ∨ s = 0) →
       ∀ x ∈ positions sig, x = 1 ∨ x = -1 ∨ x = 0) := by
  refine ⟨?_, ?_, ?_⟩
  · intro c cap sig k hk hk1 hcarry
    have hset : sig.set k 0 = sig.take k ++ 0 :: sig.drop (k+1) :=
      List.set_eq_take_cons_drop 0 hk
    have hdecomp : sig = sig.take k ++ sig.getD k 0 :: sig.drop (k+1) := by
      rw [List.getD_eq_getElem sig 0 hk, List.getElem_cons_drop sig k hk,
        List.take_append_drop]
    have hc : carryAfter (sig.take k) 0 = 1 := hcarry
    have hpos : positions (sig.set k 0) = positions sig := by
      rw [hset]
      conv_rhs => rw [hdecomp]
      rw [positions, positions, positionsAux_append, positionsAux_append]
      congr 1
      rw [hk1, positionsAux, positionsAux, if_pos rfl,
        if_neg (by norm_num : ¬(1:ℤ) = 0), hc]
    refine ⟨hpos, ?_, fun i => equity_congr cap c _ sig hpos (by rw [List.length_set]) i⟩
    rw [tradesOf, tradesOf, calculate_trades, calculate_trades, hpos]
  · intro c sig k hsig hk hkm1 hcarry
    have hset : sig.set k 0 = sig.take k ++ 0 :: sig.drop (k+1) :=
      List.set_eq_take_cons_drop 0 hk
    have hdecomp : sig = sig.take k ++ sig.getD k 0 :: sig.drop (k+1) := by
      rw [List.getD_eq_getElem sig 0 hk, List.getElem_cons_drop sig k hk,
        List.take_append_drop]
    have hc : carryAfter (sig.take k) 0 ≠ 1 := hcarry
    rw [tradesOf, tradesOf, calculate_trades, calculate_trades, positions, positions,
      hset]
    conv_rhs => rw [hdecomp]
    rw [positionsAux_append, positionsAux_append, tradesGo_append, tradesGo_append]
    congr 1
    have hstA : tradeStateGo c (positionsAux (sig.take k) 0) 0 none = none := by
      refine Option.not_isSome_iff_eq_none.mp (fun h => hc ?_)
      exact (tradeState_carry c (sig.take k) 0 0 none
        (fun x hx => hsig x (List.mem_of_mem_take hx)) (by simp)).mp h
    rw [hstA, hkm1, positionsAux, positionsAux, if_pos rfl,
      if_neg (by norm_num : ¬(-1:ℤ) = 0), tradesGo, tradesGo, if_neg hc,
      if_neg (by norm_num : ¬(-1:ℤ) = 1)]
    exact tradesGo_flat_carry c (sig.drop (k+1)) _ (-1) _ hc (by norm_num)
  · intro sig hsig x hx
    exact positionsAux_mem_range sig hsig 0 (by norm_num) x hx

/-- **C3** counterexample to the claim as stated: a sell signal received while
FLAT (bar 0 of `[-1, none]`) sets the held position indicator to `-1` — a
short exposure outside `{0, 1}` — and the equity curve over closes `[1, 2]`
drops to 0 instead of staying at the initial capital 10000, so the sell is
not a no-op for the equity curve. -/
theorem C3_counterexample :
    positions [-1, 0] = [-1, -1] ∧
    equity 10000 [1, 2] [-1, 0] 1 = some 0 ∧
    equity 10000 [1, 2] [0, 0] 1 = some 10000 ∧
    ¬ (equity 10000 [1, 2] [-1, 0] 1 = equity 10000 [1, 2] [0, 0] 1) := by
  have h1 : equity 10000 [1, 2] [-1, 0] 1 = some 0 := by
    norm_num [equity, equityAcc, strategy_return, pct_change, positions, positionsAux]
  have h2 : equity 10000 [1, 2] [0, 0] 1 = some 10000 := by
    norm_num [equity, equityAcc, strategy_return, pct_change, positions, positionsAux]
  refine ⟨by decide, h1, h2, ?_⟩
  rw [h1, h2]
  intro hcontra
  simp at hcontra

/-- **C3** witness: a redundant buy at bar 1 of `[buy, buy, sell]` is a
no-op for positions/trades/equity, and a sell while flat at bar 0 of
`[sell, buy, sell]` leaves the trade log unchanged. -/
theorem C3_witness :
    positions ([1, 1, -1].set 1 0) = positions [1, 1, -1] ∧
    tradesOf [1, 2, 4] ([1, 1, -1].set 1 0) = tradesOf [1, 2, 4] [1, 1, -1] ∧
    equity 10000 [1, 2, 4] ([1, 1, -1].set 1 0) 2 = equity 10000 [1, 2, 4] [1, 1, -1] 2 ∧
    tradesOf [1, 2, 4] ([-1, 1, -1].set 0 0) = tradesOf [1, 2, 4] [-1, 1, -1] ∧
    (∀ x ∈ positions [-1, 1, -1], x = 1 ∨ x = -1 ∨ x = 0) := by
  obtain ⟨ha, hb, hcrange⟩ := C3_noop_signals
  obtain ⟨h1, h2, h3⟩ := ha [1, 2, 4] 10000 [1, 1, -1] 1 (by norm_num) (by decide) (by decide)
  exact ⟨h1, h2, h3 2,
    hb [1, 2, 4] [-1, 1, -1] 0 (by decide) (by norm_num) (by decide) (by decide),
    hcrange [-1, 1, -1] (by decide)⟩

/-- Full characterization of the trades that `_calculate_trades` emits from an
ffilled position stream, in terms of the ORIGINAL signal stream: every trade's
exit bar carries a `-1` signal and its recorded exit price is the (rounded)
price at that very bar; its entry either comes from the incoming machine state
or sits at a `+1`-signal bar with the (rounded) price of that bar. -/
lemma tradesGo_sig_mem (prices : List ℚ) :
    ∀ (sig : List ℤ) (c0 : ℤ) (i : ℕ) (st : Option (ℕ × ℚ)) (t : Trade),
    (∀ s ∈ sig, s = 1 ∨ s = -1 ∨ s = 0) →
    (st.isSome ↔ c0 = 1) →
    t ∈ tradesGo prices (positionsAux sig c0) i st →
    (i ≤ t.exit_idx ∧ t.exit_idx < i + sig.length ∧
     sig.getD (t.exit_idx - i) 0 = -1 ∧
     t.exit_price = round2 (prices.getD t.exit_idx 0)) ∧
    ((∃ ei ep, st = some (ei, ep) ∧ t.entry_idx = ei ∧ t.entry_price = round2 ep) ∨
     (i ≤ t.entry_idx ∧ t.entry_idx < i + sig.length ∧
      sig.getD (t.entry_idx - i) 0 = 1 ∧
      t.entry_price = round2 (prices.getD t.entry_idx 0) ∧
      t.entry_idx < t.exit_idx)) := by
  intro sig
  induction sig with
  | nil =>
    intro c0 i st t _ _ ht
    rw [positionsAux] at ht
    exact absurd ht (by simp [tradesGo])
  | cons s rest ih =>
    intro c0 i st t hsig hst ht
    have hrest : ∀ x ∈ rest, x = 1 ∨ x = -1 ∨ x = 0 := fun x hx => hsig x (by simp [hx])
    have shiftExit : ∀ m, i + 1 ≤ m → m < i + 1 + rest.length →
        (rest.getD (m - (i+1)) 0 = t.exit_idx - t.exit_idx + rest.getD (m - (i+1)) 0) := by
      intro m _ _; omega
    rw [positionsAux] at ht
    rcases hsig s (by simp) with rfl | rfl | rfl
    · -- s = 1
      rw [if_neg (by norm_num : ¬(1:ℤ) = 0)] at ht
      cases st with
      | none =>
        rw [tradesGo, if_pos rfl] at ht
        obtain ⟨hx, he⟩ := ih 1 (i+1) (some (i, prices.getD i 0)) t hrest (by simp) ht
        refine ⟨⟨by omega, by simp only [List.length_cons]; omega, ?_, hx.2.2.2⟩, ?_⟩
        · have h1 : t.exit_idx - i = (t.exit_idx - (i+1)) + 1 := by omega
          rw [h1, List.getD_cons_succ]
          exact hx.2.2.1
        · rcases he with ⟨ei, ep, hstv, hei, hep⟩ | ⟨h1, h2, h3, h4, h5⟩
          · right
            have hpair : (i, prices.getD i 0) = (ei, ep) := Option.some.inj hstv
            cases hpair
            refine ⟨by omega, by simp only [List.length_cons]; omega, ?_, ?_, by omega⟩
            · rw [hei, Nat.sub_self, List.getD_cons_zero]
            · rw [hei]
              exact hep
          · right
            refine ⟨by omega, by simp only [List.length_cons]; omega, ?_, h4, h5⟩
            have h6 : t.entry_idx - i = (t.entry_idx - (i+1)) + 1 := by omega
            rw [h6, List.getD_cons_succ]
            exact h3
      | some v =>
        rw [tradesGo, if_neg (by norm_num : ¬(1:ℤ) = -1)] at ht
        obtain ⟨hx, he⟩ := ih 1 (i+1) (some v) t hrest (by simp) ht
        refine ⟨⟨by omega, by simp only [List.length_cons]; omega, ?_, hx.2.2.2⟩, ?_⟩
        · have h1 : t.exit_idx - i = (t.exit_idx - (i+1)) + 1 := by omega
          rw [h1, List.getD_cons_succ]
          exact hx.2.2.1
        · rcases he with ⟨ei, ep, hstv, hei, hep⟩ | ⟨h1, h2, h3, h4, h5⟩
          · exact Or.inl ⟨ei, ep, hstv, hei, hep⟩
          · right
            refine ⟨by omega, by simp only [List.length_cons]; omega, ?_, h4, h5⟩
            have h6 : t.entry_idx - i = (t.entry_idx - (i+1)) + 1 := by omega
            rw [h6, List.getD_cons_succ]
            exact h3
    · -- s = -1
      rw [if_neg (by norm_num : ¬(-1:ℤ) = 0)] at ht
      cases st with
      | none =>
        rw [tradesGo, if_neg (by norm_num : ¬(-1:ℤ) = 1)] at ht
        obtain ⟨hx, he⟩ := ih (-1) (i+1) none t hrest (by simp) ht
        refine ⟨⟨by omega, by simp only [List.length_cons]; omega, ?_, hx.2.2.2⟩, ?_⟩
        · have h1 : t.exit_idx - i = (t.exit_idx - (i+1)) + 1 := by omega
          rw [h1, List.getD_cons_succ]
          exact hx.2.2.1
        · rcases he with ⟨ei, ep, hstv, _, _⟩ | ⟨h1, h2, h3, h4, h5⟩
          · exact absurd hstv (by simp)
          · right
            refine ⟨by omega, by simp only [List.length_cons]; omega, ?_, h4, h5⟩
            have h6 : t.entry_idx - i = (t.entry_idx - (i+1)) + 1 := by omega
            rw [h6, List.getD_cons_succ]
            exact h3
      | some v =>
        rw [tradesGo, if_pos rfl] at ht
        rcases List.mem_cons.mp ht with rfl | ht'
        · refine ⟨⟨le_rfl, by simp only [List.length_cons]; omega, ?_, rfl⟩,
            Or.inl ⟨v.1, v.2, by rfl, rfl, rfl⟩⟩
          rw [Nat.sub_self, List.getD_cons_zero]
        · obtain ⟨hx, he⟩ := ih (-1) (i+1) none t hrest (by simp) ht'
          refine ⟨⟨by omega, by simp only [List.length_cons]; omega, ?_, hx.2.2.2⟩, ?_⟩
          · have h1 : t.exit_idx - i = (t.exit_idx - (i+1)) + 1 := by omega
            rw [h1, List.getD_cons_succ]
            exact hx.2.2.1
          · rcases he with ⟨ei, ep, hstv, _, _⟩ | ⟨h1, h2, h3, h4, h5⟩
            · exact absurd hstv (by simp)
            · right
              refine ⟨by omega, by simp only [List.length_cons]; omega, ?_, h4, h5⟩
              have h6 : t.entry_idx - i = (t.entry_idx - (i+1)) + 1 := by omega
              rw [h6, List.getD_cons_succ]
              exact h3
    · -- s = 0 (the carried value is replayed)
      rw [if_pos rfl] at ht
      cases st with
      | none =>
        simp only [Option.isSome_none, Bool.false_eq_true, false_iff] at hst
        rw [tradesGo, if_neg hst] at ht
        obtain ⟨hx, he⟩ := ih c0 (i+1) none t hrest (by simp [hst]) ht
        refine ⟨⟨by omega, by simp only [List.length_cons]; omega, ?_, hx.2.2.2⟩, ?_⟩
        · have h1 : t.exit_idx - i = (t.exit_idx - (i+1)) + 1 := by omega
          rw [h1, List.getD_cons_succ]
          exact hx.2.2.1
        · rcases he with ⟨ei, ep, hstv, _, _⟩ | ⟨h1, h2, h3, h4, h5⟩
          · exact absurd hstv (by simp)
          · right
            refine ⟨by omega, by simp only [List.length_cons]; omega, ?_, h4, h5⟩
            have h6 : t.entry_idx - i = (t.entry_idx - (i+1)) + 1 := by omega
            rw [h6, List.getD_cons_succ]
            exact h3
      | some v =>
        simp only [Option.isSome_some, true_iff] at hst
        rw [tradesGo, if_neg (by rw [hst]; norm_num)] at ht
        obtain ⟨hx, he⟩ := ih c0 (i+1) (some v) t hrest (by simp [hst]) ht
        refine ⟨⟨by omega, by simp only [List.length_cons]; omega, ?_, hx.2.2.2⟩, ?_⟩
        · have h1 : t.exit_idx - i = (t.exit_idx - (i+1)) + 1 := by omega
          rw [h1, List.getD_cons_succ]
          exact hx.2.2.1
        · rcases he with ⟨ei, ep, hstv, hei, hep⟩ | ⟨h1, h2, h3, h4, h5⟩
          · exact Or.inl ⟨ei, ep, hstv, hei, hep⟩
          · right
            refine ⟨by omega, by simp only [List.length_cons]; omega, ?_, h4, h5⟩
            have h6 : t.entry_idx - i = (t.entry_idx - (i+1)) + 1 := by omega
            rw [h6, List.getD_cons_succ]
            exact h3

/-- **C10** (amended).  Every emitted Trade records as entry price the close
price AT THE BAR OF THE ENTRY SIGNAL ITSELF, rounded to two decimals, and as
exit price the close at the exit-signal bar, rounded to two decimals — no
one-bar shift — while the equity curve applies positions with a one-bar lag;
and the recorded (rounded) pnl percent can differ from the equity-curve change
over the same bars, as the concrete run in the second conjunct shows. -/
theorem C10_trade_prices (c : List ℚ) (sig : List ℤ)
    (hsig : ∀ s ∈ sig, s = 1 ∨ s = -1 ∨ s = 0) :
    (∀ t ∈ tradesOf c sig,
      sig.getD t.entry_idx 0 = 1 ∧
      sig.getD t.exit_idx 0 = -1 ∧
      t.entry_price = round2 (c.getD t.entry_idx 0) ∧
      t.exit_price = round2 (c.getD t.exit_idx 0) ∧
      t.entry_idx < t.exit_idx ∧ t.exit_idx < sig.length) ∧
    ((tradesOf [1, 3, 4] [0, 1, -1]).map
        (fun t => (t.entry_idx, t.exit_idx, t.pnl_pct)) = [(1, 2, 3333/100)] ∧
      equity 10000 [1, 3, 4] [0, 1, -1] 1 = some 10000 ∧
      equity 10000 [1, 3, 4] [0, 1, -1] 2 = some (40000/3) ∧
      ((40000/3 : ℚ) / 10000 - 1) * 100 = 100/3 ∧
      (3333/100 : ℚ) ≠ 100/3) := by
  constructor
  · intro t ht
    rw [tradesOf, calculate_trades, positions] at ht
    obtain ⟨⟨hx1, hx2, hx3, hx4⟩, he⟩ :=
      tradesGo_sig_mem c sig 0 0 none t hsig (by simp) ht
    rcases he with ⟨ei, ep, hstv, _, _⟩ | ⟨he1, he2, he3, he4, he5⟩
    · exact absurd hstv (by simp)
    · rw [Nat.sub_zero] at hx3 he3
      exact ⟨he3, hx3, he4, hx4, he5, by omega⟩
  · refine ⟨?_, ?_, ?_, by norm_num, by norm_num⟩
    · norm_num [tradesOf, calculate_trades, tradesGo, positions, positionsAux,
        round2, round_eq]
    · norm_num [equity, equityAcc, strategy_return, pct_change, positions, positionsAux]
    · norm_num [equity, equityAcc, strategy_return, pct_change, positions, positionsAux]

/-- **C10** counterexample to the claim as stated: on closes
`[2, 1.001, 3]` the trade entered at bar 1 records `entry_price = 1.00`,
the two-decimal rounding of the close `1.001` — not the close price itself. -/
theorem C10_counterexample :
    (tradesOf [2, 1001/1000, 3] [0, 1, -1]).map
      (fun t => (t.entry_idx, t.entry_price)) = [(1, 1)] ∧
    [2, (1001 : ℚ)/1000, 3].getD 1 0 = 1001/1000 ∧
    (1 : ℚ) ≠ 1001/1000 := by
  refine ⟨?_, by norm_num, by norm_num⟩
  norm_num [tradesOf, calculate_trades, tradesGo, positions, positionsAux,
    round2, round_eq]

/-- **C10** witness: the trade of the run over closes `[1, 3, 4]` with a buy
signal at bar 1 and a sell at bar 2 carries the (rounded) closes of exactly
those two bars. -/
theorem C10_witness :
    (⟨1, 2, 3, 4, 3333/100, 1, 1, true⟩ : Trade).entry_price =
      round2 ([1, 3, 4].getD 1 0) ∧
    (⟨1, 2, 3, 4, 3333/100, 1, 1, true⟩ : Trade).exit_price =
      round2 ([1, 3, 4].getD 2 0) ∧
    [0, 1, -1].getD 1 (0 : ℤ) = 1 ∧ [0, 1, -1].getD 2 (0 : ℤ) = -1 := by
  have hmem : (⟨1, 2, 3, 4, 3333/100, 1, 1, true⟩ : Trade) ∈
      tradesOf [1, 3, 4] [0, 1, -1] := by
    norm_num [tradesOf, calculate_trades, tradesGo, positions, positionsAux,
      round2, round_eq]
  obtain ⟨h1, h2, h3, h4, h5, h6⟩ :=
    (C10_trade_prices [1, 3, 4] [0, 1, -1] (by decide)).1 _ hmem
  exact ⟨h3, h4, h1, h2⟩

section CrossoverHelpers

lemma oGT_iff (x y : Option ℚ) :
    oGT x y = true ↔ ∃ a b, x = some a ∧ y = some b ∧ b < a := by
  cases x <;> cases y <;> simp [oGT]

lemma oLT_iff (x y : Option ℚ) :
    oLT x y = true ↔ ∃ a b, x = some a ∧ y = some b ∧ a < b := by
  cases x <;> cases y <;> simp [oLT]

lemma oLE_iff (x y : Option ℚ) :
    oLE x y = true ↔ ∃ a b, x = some a ∧ y = some b ∧ a ≤ b := by
  cases x <;> cases y <;> simp [oLE]

lemma oGE_iff (x y : Option ℚ) :
    oGE x y = true ↔ ∃ a b, x = some a ∧ y = some b ∧ b ≤ a := by
  cases x <;> cases y <;> simp [oGE]

lemma oLT_swap (x y : Option ℚ) : oLT x y = oGT y x := by
  cases x <;> cases y <;> rfl

lemma oGE_swap (x y : Option ℚ) : oGE x y = oLE y x := by
  cases x <;> cases y <;> rfl

lemma cross_disjoint (A B : List (Option ℚ)) (i : ℕ) (hu : crossUp A B i = true) :
    crossDown A B i = false := by
  rw [crossUp, Bool.and_eq_true] at hu
  obtain ⟨a, b, hA', hB', hba⟩ := (oGT_iff _ _).mp hu.1
  rw [crossDown, hA', hB']
  have : oLT (some a) (some b) = false := by
    simp [oLT]
    exact le_of_lt hba
  rw [this, Bool.false_and]

lemma crossDown_swap (A B : List (Option ℚ)) (i : ℕ) :
    crossDown A B i = crossUp B A i := by
  rw [crossDown, crossUp, oLT_swap, oGE_swap]

lemma crossSignal_eq_one (A B : List (Option ℚ)) (i : ℕ) :
    crossSignal A B i = 1 ↔ crossUp A B i = true := by
  rw [crossSignal]
  by_cases hd : crossDown A B i = true
  · rw [if_pos hd]
    constructor
    · intro h; exact absurd h (by norm_num)
    · intro hu
      rw [cross_disjoint A B i hu] at hd
      exact absurd hd (by norm_num)
  · rw [if_neg hd]
    by_cases hu : crossUp A B i = true
    · rw [if_pos hu]
      simp [hu]
    · rw [if_neg hu]
      simp [hu]

lemma crossSignal_eq_negone (A B : List (Option ℚ)) (i : ℕ) :
    crossSignal A B i = -1 ↔ crossDown A B i = true := by
  rw [crossSignal]
  by_cases hd : crossDown A B i = true
  · rw [if_pos hd]
    simp [hd]
  · rw [if_neg hd]
    by_cases hu : crossUp A B i = true
    · rw [if_pos hu]
      constructor
      · intro h; exact absurd h (by norm_num)
      · intro h; exact absurd h hd
    · rw [if_neg hu]
      constructor
      · intro h; exact absurd h (by norm_num)
      · intro h; exact absurd h hd

lemma getD_isSome_lt (X : List (Option ℚ)) (m : ℕ)
    (h : (X.getD m none).isSome) : m < X.length := by
  by_contra hm
  rw [List.getD_eq_default _ _ (by omega)] at h
  exact absurd h (by simp)

lemma mono_defined (X : List (Option ℚ))
    (hX : ∀ j, j + 1 < X.length → (X.getD j none).isSome → (X.getD (j+1) none).isSome)
    (i : ℕ) (hi : (X.getD i none).isSome) :
    ∀ m, i ≤ m → m < X.length → (X.getD m none).isSome := by
  intro m him
  induction m with
  | zero =>
    intro _
    have : i = 0 := by omega
    rw [← this]
    exact hi
  | succ n ihn =>
    intro hlen
    rcases Nat.lt_or_ge i (n+1) with hlt | hge
    · exact hX n hlen (ihn (by omega) (by omega))
    · have : i = n + 1 := by omega
      rw [← this]
      exact hi

lemma cross_no_repeat_up (A B : List (Option ℚ))
    (hA : ∀ j, j + 1 < A.length → (A.getD j none).isSome → (A.getD (j+1) none).isSome)
    (hB : ∀ j, j + 1 < B.length → (B.getD j none).isSome → (B.getD (j+1) none).isSome)
    (i k : ℕ) (hik : i < k)
    (hsi : crossUp A B i = true) (hsk : crossUp A B k = true)
    (hnotie : ∀ m, m < k → i < m → A.getD m none ≠ B.getD m none) :
    ∃ m, i < m ∧ m < k ∧ crossDown A B m = true := by
  rw [crossUp, Bool.and_eq_true] at hsi hsk
  obtain ⟨ai, bi, hAi, hBi, hlti⟩ := (oGT_iff _ _).mp hsi.1
  obtain ⟨ak, bk, hAk, hBk, hlek⟩ := (oLE_iff _ _).mp hsk.2
  have hk0 : k ≠ 0 := by
    intro h
    rw [h, shift1, if_pos rfl] at hAk
    exact Option.noConfusion hAk
  rw [shift1, if_neg hk0] at hAk hBk
  -- the bar before the second up-cross satisfies A ≤ B; it cannot be bar i
  have hki : k - 1 ≠ i := by
    intro h
    rw [h, hAi] at hAk
    rw [h, hBi] at hBk
    have h1 : ai = ak := Option.some.inj hAk
    have h2 : bi = bk := Option.some.inj hBk
    rw [← h1, ← h2] at hlek
    exact absurd hlek (not_le.mpr hlti)
  have hAsome : (A.getD i none).isSome := by rw [hAi]; rfl
  have hBsome : (B.getD i none).isSome := by rw [hBi]; rfl
  have hAlen : k - 1 < A.length := getD_isSome_lt A (k-1) (by rw [hAk]; rfl)
  have hBlen : k - 1 < B.length := getD_isSome_lt B (k-1) (by rw [hBk]; rfl)
  -- least index in (i, k-1] where the NaN-aware A ≤ B holds
  have hex : ∃ m, i < m ∧ m ≤ k - 1 ∧ oLE (A.getD m none) (B.getD m none) = true := by
    refine ⟨k - 1, by omega, le_rfl, ?_⟩
    rw [oLE_iff]
    exact ⟨ak, bk, hAk, hBk, hlek⟩
  set m0 := Nat.find hex with hm0def
  obtain ⟨hm1, hm2, hm3⟩ := Nat.find_spec hex
  have hmin : ∀ j, j < m0 → ¬(i < j ∧ j ≤ k - 1 ∧ oLE (A.getD j none) (B.getD j none) = true) :=
    fun j hj => Nat.find_min hex hj
  obtain ⟨am, bm, hAm, hBm, hlem⟩ := (oLE_iff _ _).mp hm3
  -- at m0 the two series are defined and tied values are excluded: strict <
  have hne : am ≠ bm := by
    intro h
    refine hnotie m0 (by omega) hm1 ?_
    rw [hAm, hBm, h]
  have hltm : am < bm := lt_of_le_of_ne hlem hne
  -- the bar before m0 satisfies A > B (defined), so m0 is a down-cross
  have hprev : oGE (A.getD (m0 - 1) none) (B.getD (m0 - 1) none) = true := by
    rcases Nat.lt_or_ge i (m0 - 1) with hlt | hge
    · -- m0 - 1 is strictly between i and k: not in the found set, so ¬(A ≤ B);
      -- both series are defined there by monotone definedness
      have hne1 : ¬ oLE (A.getD (m0-1) none) (B.getD (m0-1) none) = true := by
        intro hle
        exact hmin (m0-1) (by omega) ⟨hlt, by omega, hle⟩
      have hAd : (A.getD (m0-1) none).isSome :=
        mono_defined A hA i hAsome (m0-1) (by omega) (by omega)
      have hBd : (B.getD (m0-1) none).isSome :=
        mono_defined B hB i hBsome (m0-1) (by omega) (by omega)
      obtain ⟨a', hA'⟩ := Option.isSome_iff_exists.mp hAd
      obtain ⟨b', hB'⟩ := Option.isSome_iff_exists.mp hBd
      rw [hA', hB'] at hne1 ⊢
      rw [oLE_iff] at hne1
      push_neg at hne1
      have := hne1 a' b' rfl rfl
      rw [oGE_iff]
      exact ⟨a', b', rfl, rfl, le_of_lt this⟩
    · -- m0 - 1 = i, where the first up-cross gives A > B
      have : m0 - 1 = i := by omega
      rw [this, hAi, hBi, oGE_iff]
      exact ⟨ai, bi, rfl, rfl, le_of_lt hlti⟩
  refine ⟨m0, hm1, by omega, ?_⟩
  rw [crossDown, Bool.and_eq_true]
  constructor
  · rw [oLT_iff]
    exact ⟨am, bm, hAm, hBm, hltm⟩
  · rw [shift1, shift1, if_neg (by omega : ¬ m0 = 0), if_neg (by omega : ¬ m0 = 0)]
    exact hprev

end CrossoverHelpers

lemma mono_of_all_defined (X : List (Option ℚ)) (h : ∀ x ∈ X, x.isSome) :
    ∀ j, j + 1 < X.length → (X.getD j none).isSome → (X.getD (j+1) none).isSome := by
  intro j hj _
  rw [List.getD_eq_getElem X none hj]
  exact h _ (List.getElem_mem _)

/-- **C7** (amended).  For any two indicator series (with pandas semantics:
a comparison against an undefined value is false), the generated signal is 1
at bar `i` exactly when `A[i] > B[i]` and `A[i-1] ≤ B[i-1]` (both defined),
`-1` exactly on the symmetric downward transition, and 0 otherwise.  Two
signals of the same direction without an intervening opposite signal CAN
occur when the two series tie exactly in between (see the counterexample);
they cannot occur when the series stay defined step-to-step and are never
exactly equal strictly between the two signal bars. -/
theorem C7_crossover_signals (A B : List (Option ℚ)) :
    (∀ i, i < A.length →
      (((crossSignals A B).getD i 0 = 1) ↔
        ((∃ a b, A.getD i none = some a ∧ B.getD i none = some b ∧ b < a) ∧
         (∃ a b, shift1 A i = some a ∧ shift1 B i = some b ∧ a ≤ b))) ∧
      (((crossSignals A B).getD i 0 = -1) ↔
        ((∃ a b, A.getD i none = some a ∧ B.getD i none = some b ∧ a < b) ∧
         (∃ a b, shift1 A i = some a ∧ shift1 B i = some b ∧ b ≤ a)))) ∧
    ((∀ j, j + 1 < A.length → (A.getD j none).isSome → (A.getD (j+1) none).isSome) →
     (∀ j, j + 1 < B.length → (B.getD j none).isSome → (B.getD (j+1) none).isSome) →
     (∀ i k, i < k → crossSignal A B i = 1 → crossSignal A B k = 1 →
        (∀ m, m < k → i < m → A.getD m none ≠ B.getD m none) →
        ∃ m, i < m ∧ m < k ∧ crossSignal A B m = -1) ∧
     (∀ i k, i < k → crossSignal A B i = -1 → crossSignal A B k = -1 →
        (∀ m, m < k → i < m → A.getD m none ≠ B.getD m none) →
        ∃ m, i < m ∧ m < k ∧ crossSignal A B m = 1)) := by
  constructor
  · intro i hi
    rw [crossSignals, getD_range_map _ _ _ _ hi]
    constructor
    · rw [crossSignal_eq_one, crossUp, Bool.and_eq_true, oGT_iff, oLE_iff]
    · rw [crossSignal_eq_negone, crossDown, Bool.and_eq_true, oLT_iff, oGE_iff]
  · intro hA hB
    constructor
    · intro i k hik h1 h2 hnt
      obtain ⟨m, hm1, hm2, hm3⟩ := cross_no_repeat_up A B hA hB i k hik
        ((crossSignal_eq_one A B i).mp h1) ((crossSignal_eq_one A B k).mp h2) hnt
      exact ⟨m, hm1, hm2, (crossSignal_eq_negone A B m).mpr hm3⟩
    · intro i k hik h1 h2 hnt
      have h1' : crossUp B A i = true := by
        rw [← crossDown_swap]
        exact (crossSignal_eq_negone A B i).mp h1
      have h2' : crossUp B A k = true := by
        rw [← crossDown_swap]
        exact (crossSignal_eq_negone A B k).mp h2
      obtain ⟨m, hm1, hm2, hm3⟩ := cross_no_repeat_up B A hB hA i k hik h1' h2'
        (fun m hm him => Ne.symm (hnt m hm him))
      rw [crossDown_swap] at hm3
      exact ⟨m, hm1, hm2, (crossSignal_eq_one A B m).mpr hm3⟩

/-- **C7** counterexample to the claim as stated: with closes
`[2, 1, 3, 3, 4]` the 1-bar and 2-bar SMAs tie exactly at bar 3, so the SMA
crossover strategy emits long-entry signals at BOTH bars 2 and 4 with no
long-exit in between — the "never twice in the same direction" consequence
fails on ties. -/
theorem C7_counterexample :
    sma_crossover_signals [2, 1, 3, 3, 4] 1 2 = [0, 0, 1, 0, 1] ∧
    (sma_crossover_signals [2, 1, 3, 3, 4] 1 2).getD 2 0 = 1 ∧
    (sma_crossover_signals [2, 1, 3, 3, 4] 1 2).getD 4 0 = 1 ∧
    ¬ ((sma_crossover_signals [2, 1, 3, 3, 4] 1 2).getD 3 0 = -1) := by
  have h : sma_crossover_signals [2, 1, 3, 3, 4] 1 2 = [0, 0, 1, 0, 1] := by
    norm_num [sma_crossover_signals, crossSignals, crossSignal, crossUp, crossDown,
      smaList, List.range_succ, oGT, oLT, oLE, oGE, shift1, List.getD]
  refine ⟨h, by rw [h]; rfl, by rw [h]; rfl, by rw [h]; norm_num⟩

/-- **C7** witness: with closes `[2, 1, 3, 1, 3]` (no ties between bars 2
and 4) the two long-entries at bars 2 and 4 of the 1/2-SMA crossover are
separated by a long-exit, as the amended statement requires. -/
theorem C7_witness :
    ∃ m, 2 < m ∧ m < 4 ∧
      crossSignal (smaList [2, 1, 3, 1, 3] 1) (smaList [2, 1, 3, 1, 3] 2) m = -1 := by
  have hA : smaList [2, 1, 3, 1, 3] 1 = [some 2, some 1, some 3, some 1, some 3] := by
    norm_num [smaList, List.range_succ]
  have hB : smaList [2, 1, 3, 1, 3] 2 =
      [none, some (3/2), some 2, some 2, some 2] := by
    norm_num [smaList, List.range_succ]
  refine ((C7_crossover_signals (smaList [2, 1, 3, 1, 3] 1)
      (smaList [2, 1, 3, 1, 3] 2)).2 ?_ ?_).1 2 4 (by norm_num) ?_ ?_ ?_
  · refine mono_of_all_defined _ ?_
    rw [hA]
    intro x hx
    simp only [List.mem_cons, List.not_mem_nil, or_false] at hx
    rcases hx with rfl | rfl | rfl | rfl | rfl <;> rfl
  · intro j hj _
    have hj4 : j < 4 := by
      rw [hB] at hj
      simp only [List.length_cons, List.length_nil] at hj
      omega
    rw [hB]
    interval_cases j <;> rfl
  · rw [crossSignal_eq_one, crossUp, hA, hB]
    norm_num [oGT, oLE, shift1, List.getD]
  · rw [crossSignal_eq_one, crossUp, hA, hB]
    norm_num [oGT, oLE, shift1, List.getD]
  · intro m hm4 hm2
    have hm : m = 3 := by omega
    rw [hm, hA, hB]
    norm_num [List.getD]

section SupportResistance

/-- The centered extremum window as the AMENDED spec describes it: `window`
bars, spanning `i - ⌈(w-1)/2⌉ .. i + ⌊(w-1)/2⌋` (`⌈(w-1)/2⌉ = w-1-(w-1)/2`). -/
def amendedCenteredMax (xs : List ℚ) (w i : ℕ) : Option ℚ :=
  if 1 ≤ w ∧ w - 1 - (w-1)/2 ≤ i ∧ i + (w-1)/2 < xs.length then
    ((xs.drop (i - (w - 1 - (w-1)/2))).take w).max?
  else none

/-- The amended centered minimum window. -/
def amendedCenteredMin (xs : List ℚ) (w i : ℕ) : Option ℚ :=
  if 1 ≤ w ∧ w - 1 - (w-1)/2 ≤ i ∧ i + (w-1)/2 < xs.length then
    ((xs.drop (i - (w - 1 - (w-1)/2))).take w).min?
  else none

/-- `find_support_resistance` with the window described by the amendment
(`window` bars centered à la pandas), all other steps as in the spec. -/
def amended_find_support_resistance (highs lows : List ℚ) (w mt : ℕ) : SRLevels :=
  { support := sortedTake5Asc
      (((List.range lows.length).filter (fun i =>
          w ≤ i ∧ i < lows.length - w ∧
          amendedCenteredMin lows w i = some (lows.getD i 0) ∧
          mt ≤ touches lows (lows.getD i 0))).map (fun i => lows.getD i 0)),
    resistance := sortedTake5Desc
      (((List.range highs.length).filter (fun i =>
          w ≤ i ∧ i < highs.length - w ∧
          amendedCenteredMax highs w i = some (highs.getD i 0) ∧
          mt ≤ touches highs (highs.getD i 0))).map (fun i => highs.getD i 0)) }

lemma centeredRollMax_amended (xs : List ℚ) (w i : ℕ) :
    centeredRollMax xs w i = amendedCenteredMax xs w i := by
  rw [centeredRollMax, amendedCenteredMax]
  by_cases h : 1 ≤ w ∧ w ≤ i + (w-1)/2 + 1 ∧ i + (w-1)/2 < xs.length
  · rw [if_pos h, if_pos ⟨h.1, by omega, h.2.2⟩]
    have hidx : i + (w-1)/2 + 1 - w = i - (w - 1 - (w-1)/2) := by omega
    rw [hidx]
  · rw [if_neg h, if_neg (fun hc => h ⟨hc.1, by omega, hc.2.2⟩)]

lemma centeredRollMin_amended (xs : List ℚ) (w i : ℕ) :
    centeredRollMin xs w i = amendedCenteredMin xs w i := by
  rw [centeredRollMin, amendedCenteredMin]
  by_cases h : 1 ≤ w ∧ w ≤ i + (w-1)/2 + 1 ∧ i + (w-1)/2 < xs.length
  · rw [if_pos h, if_pos ⟨h.1, by omega, h.2.2⟩]
    have hidx : i + (w-1)/2 + 1 - w = i - (w - 1 - (w-1)/2) := by omega
    rw [hidx]
  · rw [if_neg h, if_neg (fun hc => h ⟨hc.1, by omega, hc.2.2⟩)]

lemma sortedTake5Desc_sorted (ls : List ℚ) :
    (sortedTake5Desc ls).Sorted (· ≥ ·) := by
  refine List.Pairwise.sublist (List.take_sublist 5 _) ?_
  have h : List.Sorted (fun a b : ℚ => a ≤ b)
      ((ls.dedup).insertionSort (fun a b => a ≤ b)) :=
    List.sorted_insertionSort _ _
  exact (List.pairwise_reverse).mpr h

lemma sortedTake5Desc_nodup (ls : List ℚ) : (sortedTake5Desc ls).Nodup := by
  refine List.Nodup.sublist (List.take_sublist 5 _) ?_
  rw [List.nodup_reverse]
  exact (List.perm_insertionSort _ _).nodup_iff.mpr (List.nodup_dedup ls)

lemma sortedTake5Asc_sorted (ls : List ℚ) :
    (sortedTake5Asc ls).Sorted (· ≤ ·) :=
  List.Pairwise.sublist (List.take_sublist 5 _) (List.sorted_insertionSort _ _)

lemma sortedTake5Asc_nodup (ls : List ℚ) : (sortedTake5Asc ls).Nodup :=
  List.Nodup.sublist (List.take_sublist 5 _)
    ((List.perm_insertionSort _ _).nodup_iff.mpr (List.nodup_dedup ls))

/-- **C5** (amended).  `find_support_resistance` flags an interior bar
(excluding the first/last `window` bars) as a resistance (support) candidate
exactly when its high (low) equals the centered rolling extremum over
`window` bars — pandas' `rolling(window, center=True)`, spanning
`i-⌈(window-1)/2⌉ .. i+⌊(window-1)/2⌋` — NOT over `2·window+1` bars; touches
are counted within ±2% of the level over the whole history; levels with at
least `min_touches` touches are kept, deduplicated, resistance sorted
descending and support ascending, each capped at 5 levels. -/
theorem C5_support_resistance (highs lows : List ℚ) (w mt : ℕ) (_hw : 1 ≤ w) :
    find_support_resistance highs lows w mt =
      amended_find_support_resistance highs lows w mt ∧
    (find_support_resistance highs lows w mt).resistance.Sorted (· ≥ ·) ∧
    (find_support_resistance highs lows w mt).resistance.Nodup ∧
    (find_support_resistance highs lows w mt).resistance.length ≤ 5 ∧
    (find_support_resistance highs lows w mt).support.Sorted (· ≤ ·) ∧
    (find_support_resistance highs lows w mt).support.Nodup ∧
    (find_support_resistance highs lows w mt).support.length ≤ 5 := by
  refine ⟨?_, sortedTake5Desc_sorted _, sortedTake5Desc_nodup _, ?_,
    sortedTake5Asc_sorted _, sortedTake5Asc_nodup _, ?_⟩
  · rw [find_support_resistance, amended_find_support_resistance, resistanceCands,
      supportCands]
    congr 2
    · refine congrArg _ (List.filter_congr fun i _ => ?_)
      rw [centeredRollMin_amended]
    · refine congrArg _ (List.filter_congr fun i _ => ?_)
      rw [centeredRollMax_amended]
  · rw [find_support_resistance]
    simp only [sortedTake5Desc, List.length_take]
    exact min_le_left _ _
  · rw [find_support_resistance]
    simp only [sortedTake5Asc, List.length_take]
    exact min_le_left _ _

/-- **C5** counterexample to the claim as stated: with `window = 2` and
`min_touches = 2` on highs `[9, 1, 2, 2, 1]` / constant lows, the code's
2-bar centered window flags the high `2` at bar 2 as a resistance candidate
even though `2` is not the extremum of the `2·window+1 = 5`-bar window the
spec describes (bar 0 carries the high 9), so the code reports resistance
`[2]` where the spec's description yields none. -/
theorem C5_counterexample :
    (find_support_resistance [9, 1, 2, 2, 1] [1, 1, 1, 1, 1] 2 2).resistance = [2] ∧
    (spec_find_support_resistance [9, 1, 2, 2, 1] [1, 1, 1, 1, 1] 2 2).resistance = [] ∧
    ¬ (find_support_resistance [9, 1, 2, 2, 1] [1, 1, 1, 1, 1] 2 2 =
        spec_find_support_resistance [9, 1, 2, 2, 1] [1, 1, 1, 1, 1] 2 2) := by
  have h1 : (find_support_resistance [9, 1, 2, 2, 1] [1, 1, 1, 1, 1] 2 2).resistance
      = [2] := by
    norm_num [find_support_resistance, resistanceCands, supportCands, sortedTake5Asc,
      sortedTake5Desc, centeredRollMax, centeredRollMin, touches, List.range_succ,
      List.max?, List.min?, List.dedup, List.insertionSort, List.orderedInsert,
      List.filter, max_def, min_def]
  have h2 : (spec_find_support_resistance [9, 1, 2, 2, 1] [1, 1, 1, 1, 1] 2 2).resistance
      = [] := by
    norm_num [spec_find_support_resistance, sortedTake5Asc, sortedTake5Desc,
      specCenteredMax, specCenteredMin, touches, List.range_succ,
      List.max?, List.min?, List.dedup, List.insertionSort, List.orderedInsert,
      List.filter, max_def, min_def]
  refine ⟨h1, h2, fun hc => ?_⟩
  rw [hc, h2] at h1
  exact List.noConfusion h1

/-- **C5** witness: the amended statement evaluated at the counterexample's
input; the code output coincides with the amended description and is sorted,
deduplicated and capped. -/
theorem C5_witness :
    find_support_resistance [9, 1, 2, 2, 1] [1, 1, 1, 1, 1] 2 2 =
      amended_find_support_resistance [9, 1, 2, 2, 1] [1, 1, 1, 1, 1] 2 2 ∧
    (find_support_resistance [9, 1, 2, 2, 1] [1, 1, 1, 1, 1] 2 2).resistance.length ≤ 5 := by
  obtain ⟨h1, _, _, h4, _, _, _⟩ :=
    C5_support_resistance [9, 1, 2, 2, 1] [1, 1, 1, 1, 1] 2 2 (by norm_num)
  exact ⟨h1, h4⟩

end SupportResistance

end Finbytes
